import Mathlib

/-!
Verification development for the `vite-plugin-ferry` generator: a shallow
embedding of its PHP-AST analysis (`src/unnamed/part_002`, the current
`src/utils/php-parser.ts`), its enum/resource emitters
(`src/generators/enums.ts`, `src/generators/resources.ts`) and its source-map
encoder (`src/utils/source-map.ts`), together with theorems about the
documented behaviour.

Modelling conventions:
* The external `php-parser` engine is a collaborator: parse functions take an
  already-parsed AST (`Option PhpNode`, `none` = parse failure) instead of raw
  text.
* JavaScript strings are modelled through `List Char` helpers because Lean's
  built-in `String` primitives do not reduce in the kernel.
* Filesystem lookups (`existsSync` + `readFileSafe`) are modelled as finite
  association lists from base file names to file contents / parsed ASTs.
* JavaScript exceptions are modelled with `Except`; mutation of the shared
  `collectedEnums` object is threaded as explicit state.
-/

namespace Ferry

/-! ### JavaScript string and object helpers -/

/-- JS `String.prototype.startsWith`. -/
def jsStartsWith (s p : String) : Bool := p.data.isPrefixOf s.data

/-- JS `String.prototype.endsWith`. -/
def jsEndsWith (s p : String) : Bool := p.data.reverse.isPrefixOf s.data.reverse

/-- JS `String.prototype.toLowerCase` (ASCII; all inputs in scope are ASCII). -/
def jsToLower (s : String) : String := String.mk (s.data.map Char.toLower)

/-- Does `sub` occur as a contiguous run inside `s`? (helper for `jsIncludes`). -/
def containsSubAux (sub : List Char) : List Char → Bool
  | [] => sub.isPrefixOf []
  | c :: t => sub.isPrefixOf (c :: t) || containsSubAux sub t

/-- JS `String.prototype.includes`: substring containment. -/
def jsIncludes (s sub : String) : Bool := containsSubAux sub.data s.data

/-- JS `String.prototype.trim`. -/
def jsTrim (s : String) : String :=
  String.mk (((s.data.dropWhile Char.isWhitespace).reverse.dropWhile Char.isWhitespace).reverse)

/-- JS string comparison (`a < b` on UTF-16 code unit sequences), as used by
the default `Array.prototype.sort` comparator; `lexCharsLe a b` means `a ≤ b`. -/
def lexCharsLe : List Char → List Char → Bool
  | [], _ => true
  | _ :: _, [] => false
  | a :: as, b :: bs =>
    if a.toNat < b.toNat then true
    else if b.toNat < a.toNat then false
    else lexCharsLe as bs

/-- `a ≤ b` in JS default string sort order. -/
def strLe (a b : String) : Bool := lexCharsLe a.data b.data

/-- JS object property write `obj[k] = v`: overwrites an existing property in
place (keeping its original insertion position), otherwise appends. -/
def jsObjInsert {α : Type} (m : List (String × α)) (k : String) (v : α) :
    List (String × α) :=
  if m.any (fun p => p.1 == k) then m.map (fun p => if p.1 == k then (k, v) else p)
  else m ++ [(k, v)]

/-- JS object property read `obj[k]` (`none` = `undefined`). -/
def jsObjGet {α : Type} (m : List (String × α)) (k : String) : Option α :=
  (m.find? (fun p => p.1 == k)).map (fun p => p.2)

/-- JS `obj[k]` used in a boolean position: `undefined` and the empty string
are both falsy. -/
def truthyGet (m : List (String × String)) (k : String) : Option String :=
  match jsObjGet m k with
  | some v => if v = "" then none else some v
  | none => none

/-- Stable insertion (new element goes after every element `y` with `le y x`),
modelling the placement performed by JS's stable `Array.prototype.sort`. -/
def insertStable {α : Type} (le : α → α → Bool) (x : α) : List α → List α
  | [] => [x]
  | y :: ys => if le y x then y :: insertStable le x ys else x :: y :: ys

/-- Model of JS stable `Array.prototype.sort` for a comparator inducing the
total preorder `le` (any stable sort agrees with this insertion sort). -/
def jsSort {α : Type} (le : α → α → Bool) (l : List α) : List α :=
  l.foldl (fun acc x => insertStable le x acc) []

/-! ### The php-parser AST (shallow embedding)

Node kinds the generator inspects get their own constructor; every other kind
is `other kind children`, carrying the node-valued properties in property
order (the order `walkChildren` visits them). -/

inductive PhpNode where
  | pstring (value : String)
  | pnumber (value : String)
  | identifier (name : String)
  | pvariable (name : String)
  | pname (name : String)
  | propertylookup (what : PhpNode) (offset : PhpNode)
  | staticlookup (what : PhpNode) (offset : PhpNode)
  | call (what : PhpNode) (arguments : List PhpNode)
  | pnew (what : PhpNode) (arguments : List PhpNode)
  | entry (key : Option PhpNode) (value : PhpNode)
  | parray (items : List PhpNode)
  | pclass (name : String) (body : List PhpNode)
  | method (name : String) (body : Option PhpNode)
  | block (children : List PhpNode)
  | preturn (expr : Option PhpNode)
  | propertystatement (properties : List PhpNode)
  | property (name : String) (value : Option PhpNode)
  | penum (name : String) (valueType : Option String) (body : List PhpNode)
  | enumcase (name : String) (value : Option PhpNode)
  | pmatch (cond : PhpNode) (arms : List PhpNode)
  | matcharm (conds : Option (List PhpNode)) (body : PhpNode)
  | other (kind : String) (children : List PhpNode)

/-- The `kind` string of a node, as php-parser reports it. -/
def kindOf : PhpNode → String
  | .pstring _ => "string"
  | .pnumber _ => "number"
  | .identifier _ => "identifier"
  | .pvariable _ => "variable"
  | .pname _ => "name"
  | .propertylookup _ _ => "propertylookup"
  | .staticlookup _ _ => "staticlookup"
  | .call _ _ => "call"
  | .pnew _ _ => "new"
  | .entry _ _ => "entry"
  | .parray _ => "array"
  | .pclass _ _ => "class"
  | .method _ _ => "method"
  | .block _ => "block"
  | .preturn _ => "return"
  | .propertystatement _ => "propertystatement"
  | .property _ _ => "property"
  | .penum _ _ _ => "enum"
  | .enumcase _ _ => "enumcase"
  | .pmatch _ _ => "match"
  | .matcharm _ _ => "matcharm"
  | .other k _ => k

mutual
/-- Pre-order traversal of a node: the node itself, then each node-valued
property (in property order) recursively.  The JS helpers `findNodeByKind`,
`findAllNodesByKind` and `containsWhenLoaded` all recurse through
`walkChildren` in exactly this order. -/
def preorder : PhpNode → List PhpNode
  | .pstring v => [.pstring v]
  | .pnumber v => [.pnumber v]
  | .identifier s => [.identifier s]
  | .pvariable s => [.pvariable s]
  | .pname s => [.pname s]
  | .propertylookup w o => .propertylookup w o :: (preorder w ++ preorder o)
  | .staticlookup w o => .staticlookup w o :: (preorder w ++ preorder o)
  | .call w args => .call w args :: (preorder w ++ preorderList args)
  | .pnew w args => .pnew w args :: (preorder w ++ preorderList args)
  | .entry k v => .entry k v :: (preorderOpt k ++ preorder v)
  | .parray items => .parray items :: preorderList items
  | .pclass n b => .pclass n b :: preorderList b
  | .method n b => .method n b :: preorderOpt b
  | .block xs => .block xs :: preorderList xs
  | .preturn e => .preturn e :: preorderOpt e
  | .propertystatement ps => .propertystatement ps :: preorderList ps
  | .property n v => .property n v :: preorderOpt v
  | .penum n t b => .penum n t b :: preorderList b
  | .enumcase n v => .enumcase n v :: preorderOpt v
  | .pmatch c arms => .pmatch c arms :: (preorder c ++ preorderList arms)
  | .matcharm conds b => .matcharm conds b :: (preorderOptList conds ++ preorder b)
  | .other k xs => .other k xs :: preorderList xs

def preorderList : List PhpNode → List PhpNode
  | [] => []
  | n :: rest => preorder n ++ preorderList rest

def preorderOpt : Option PhpNode → List PhpNode
  | none => []
  | some n => preorder n

def preorderOptList : Option (List PhpNode) → List PhpNode
  | none => []
  | some l => preorderList l
end

/-- JS `findAllNodesByKind`: every node of the given kind, in pre-order. -/
def findAllNodesByKind (ast : PhpNode) (kind : String) : List PhpNode :=
  (preorder ast).filter (fun n => kindOf n == kind)

/-- JS `findNodeByKind`: the first node of the given kind in pre-order. -/
def findNodeByKind (ast : PhpNode) (kind : String) : Option PhpNode :=
  (findAllNodesByKind ast kind).head?

/-- Is this node a `$x->whenLoaded(...)`-shaped call? (the pattern checked at
each step of `containsWhenLoaded`). -/
def isWhenLoadedCall : PhpNode → Bool
  | .call (.propertylookup _ (.identifier nm)) _ => nm == "whenLoaded"
  | _ => false

/-- JS `containsWhenLoaded` (part_002 lines 407-432): does the subtree contain
a `->whenLoaded(...)` call? -/
def containsWhenLoaded (node : PhpNode) : Bool :=
  (preorder node).any isWhenLoadedCall

/-- JS `getStringValue` (part_002 lines 116-124): the value of a `string`
node, or the (string-typed) value of a `number` node. -/
def getStringValue : PhpNode → Option String
  | .pstring v => some v
  | .pnumber v => some v
  | _ => none

/-! ### Enum extraction (`parseEnumContent`) -/

/-- The `string | number` value of an enum case. -/
inductive EnumVal where
  | str (s : String)
  | num (n : Int)
  deriving DecidableEq

/-- JS `String(value)` on an enum case value. -/
def EnumVal.toStr : EnumVal → String
  | .str s => s
  | .num n => toString n

structure EnumCase where
  key : String
  value : EnumVal
  label : Option String := none
  deriving DecidableEq

structure EnumDefinition where
  name : String
  backing : Option String
  cases : List EnumCase
  deriving DecidableEq

/-- JS `Number(s)` for the decimal integer strings php-parser produces for the
numeric literals in scope (non-integer numerics do not occur in the claims). -/
def jsParseInt (s : String) : Int :=
  match s.data with
  | '-' :: ds => - (ds.foldl (fun acc c => 10 * acc + (c.toNat - '0'.toNat)) 0 : Int)
  | ds => (ds.foldl (fun acc c => 10 * acc + (c.toNat - '0'.toNat)) 0 : Int)

/-- One `EnumCase` record from an `enumcase` node (part_002 lines 145-172).
Nodes of other shapes cannot occur among `findAllNodesByKind _ "enumcase"`
results of real ASTs and are skipped. -/
def extractEnumCase : PhpNode → Option EnumCase
  | .enumcase key value? =>
      some { key := key
             value :=
               match value? with
               | some v =>
                 if kindOf v == "number" then
                   .num (jsParseInt (match v with | .pnumber s => s | _ => ""))
                 else
                   match getStringValue v with
                   | some s => .str s
                   | none => .str key
               | none => .str key }
  | _ => none

/-- `cases.find(c => c.key === caseName)` followed by `enumCase.label = v`:
update the first case with the given key. -/
def setCaseLabel (cases : List EnumCase) (caseName labelValue : String) :
    List EnumCase :=
  match cases with
  | [] => []
  | c :: rest =>
    if c.key == caseName then { c with label := some labelValue } :: rest
    else c :: setCaseLabel rest caseName labelValue

/-- One `cond` iteration of the label-attachment loop (part_002 lines
187-209): a `staticlookup` condition with a non-empty identifier offset
attaches the arm's scalar body as that case's label. -/
def applyLabelCond (armBody : PhpNode) (cases : List EnumCase) (cond : PhpNode) :
    List EnumCase :=
  match cond with
  | .staticlookup _ (.identifier caseName) =>
    if caseName == "" then cases   -- JS `if (caseName)`: empty string is falsy
    else
      match getStringValue armBody with
      | some labelValue => setCaseLabel cases caseName labelValue
      | none => cases
  | _ => cases

/-- One arm iteration of the label-attachment loop (arms with `conds: null`,
i.e. `default` arms, are skipped). -/
def applyLabelArm (cases : List EnumCase) (arm : PhpNode) : List EnumCase :=
  match arm with
  | .matcharm (some conds) body => conds.foldl (applyLabelCond body) cases
  | _ => cases

/-- The full label-attachment loop over the match arms (part_002 lines
185-212 / `src/utils/php-parser.ts` lines 180-207). -/
def applyLabelArms (arms : List PhpNode) (cases : List EnumCase) : List EnumCase :=
  arms.foldl applyLabelArm cases

/-- Name of a `method` node (JS reads `m.name` / `m.name.name`). -/
def methodHasName (m : PhpNode) (name : String) : Bool :=
  match m with
  | .method n _ => n == name
  | _ => false

/-- JS `parseEnumContent`, parameterised by the label method name:
`src/unnamed/part_002` (the current `src/utils/php-parser.ts`) looks for
`label`, the older `src/src/utils/php-parser.ts` snapshot for the legacy
`getLabel`; the two functions are otherwise identical.  `ast?` is the
`parsePhp` result (`none` models a parse failure, in which case the JS
function returns `null`). -/
def parseEnumContent (labelMethodName : String) (ast? : Option PhpNode) :
    Option EnumDefinition :=
  match ast? with
  | none => none
  | some ast =>
    match findNodeByKind ast "enum" with
    | none => none
    | some enumNode =>
      let name := match enumNode with | .penum n _ _ => n | _ => ""
      let backing :=
        (match enumNode with | .penum _ t _ => t | _ => none).map jsToLower
      let cases := (findAllNodesByKind enumNode "enumcase").filterMap extractEnumCase
      let labelMethod? :=
        (findAllNodesByKind enumNode "method").find? (methodHasName · labelMethodName)
      let cases :=
        match labelMethod? with
        | some (.method _ (some body)) =>
          match findNodeByKind body "match" with
          | some (.pmatch _ arms) => applyLabelArms arms cases
          | _ => cases
        | _ => cases
      some { name := name, backing := backing, cases := cases }

/-! ### Cast table extraction (`parseModelCasts`) -/

/-- JS `replace(/^\\+/, '')`: strip a leading run of backslashes. -/
def dropLeadingBackslashes (s : String) : String :=
  String.mk (s.data.dropWhile (fun c => c == '\\'))

/-- The string stored for one cast entry value (part_002 lines 230-249):
scalar literals keep their string value, `Foo::class` references store the
class name with leading backslashes stripped; anything else is skipped. -/
def castEntryValue : PhpNode → Option String
  | .pstring v => some v
  | .pnumber v => some v
  | .staticlookup what (.identifier off) =>
    if off == "class" then
      match what with
      | .pname n => some (dropLeadingBackslashes n)
      | _ => none
    else none
  | _ => none

/-- JS `extractArrayPairs` (part_002 lines 221-258). -/
def extractArrayPairs (items : List PhpNode) : List (String × String) :=
  items.foldl
    (fun pairs item =>
      match item with
      | .entry (some keyNode) value =>
        match getStringValue keyNode with
        | some key =>
          if key == "" then pairs   -- JS `if (!key) continue`
          else
            match castEntryValue value with
            | some v => jsObjInsert pairs key v
            | none => pairs
        | none => pairs
      | _ => pairs)
    []

/-- First `casts` property with an array literal value inside one
`propertystatement`'s property list. -/
def propertyCastsItems : List PhpNode → Option (List PhpNode)
  | [] => none
  | .property n (some (.parray items)) :: rest =>
    if n == "casts" then some items else propertyCastsItems rest
  | _ :: rest => propertyCastsItems rest

/-- Scan of all `propertystatement` nodes for a `casts = [...]` property. -/
def firstCastsFromProps : List PhpNode → Option (List PhpNode)
  | [] => none
  | .propertystatement props :: rest =>
    (match propertyCastsItems props with
     | some items => some items
     | none => firstCastsFromProps rest)
  | _ :: rest => firstCastsFromProps rest

/-- JS `parseModelCasts` (part_002 lines 264-304): a `casts` property literal
wins; otherwise a `casts()` method returning an array literal; otherwise `{}`.
A `none` AST models an unreadable/unparseable model file, for which the JS
cast lookup likewise yields nothing. -/
def parseModelCasts (ast? : Option PhpNode) : List (String × String) :=
  match ast? with
  | none => []
  | some ast =>
    match findNodeByKind ast "class" with
    | none => []
    | some classNode =>
      match firstCastsFromProps (findAllNodesByKind classNode "propertystatement") with
      | some items => extractArrayPairs items
      | none =>
        match (findAllNodesByKind classNode "method").find? (methodHasName · "casts") with
        | some (.method _ (some body)) =>
          match findNodeByKind body "return" with
          | some (.preturn (some (.parray items))) => extractArrayPairs items
          | _ => []
        | _ => []

/-! ### Primitive cast mapping (`src/utils/type-mapper.ts`) -/

/-- JS `mapPhpTypeToTs` (type-mapper.ts lines 4-15). -/
def mapPhpTypeToTs (phpType : String) : String :=
  let lower := jsToLower phpType
  if lower = "int" ∨ lower = "integer" then "number"
  else if lower = "real" ∨ lower = "float" ∨ lower = "double" ∨ lower = "decimal" then "number"
  else if lower = "string" then "string"
  else if lower = "bool" ∨ lower = "boolean" then "boolean"
  else if lower = "array" ∨ lower = "json" then "any[]"
  else if lower = "datetime" ∨ lower = "date" ∨ lower = "immutable_datetime" ∨
      lower = "immutable_date" then "string"
  else "any"

/-! ### Type inference (`inferTypeFromAstNode`, part_002 lines 384-732) -/

structure ResourceFieldInfo where
  type : String
  optional : Bool
  deriving DecidableEq

/-- `ParseResourceOptions`, with the three directory collaborators modelled as
finite maps: `resourcesDir` lists the base names of the `.php` files present
(`none` = option not supplied), `modelsDir` and `enumsDir` map base names to
the parsed AST of the corresponding readable file. -/
structure ParseResourceOptions where
  resourcesDir : Option (List String) := none
  modelsDir : Option (List (String × PhpNode)) := none
  enumsDir : List (String × PhpNode) := []
  docShape : Option (List (String × String)) := none
  resourceClass : String := ""

abbrev CollectedEnums := List (String × EnumDefinition)

/-- JS regex `/^(is|has)[A-Z]/.test(key)`. -/
def isHasCamel (key : String) : Bool :=
  match key.data with
  | 'i' :: 's' :: c :: _ => c.isUpper
  | 'h' :: 'a' :: 's' :: c :: _ => c.isUpper
  | _ => false

/-- The boolean-by-name heuristic on a field key (part_002 lines 534-535). -/
def boolKeyHeuristic (key : String) : Bool :=
  let lowerKey := jsToLower key
  jsStartsWith lowerKey "is_" || jsStartsWith lowerKey "has_" || isHasCamel key

/-- JS `extractStaticCallResource` (part_002 lines 437-449): class and method
name of a `Resource::method(...)` call (`null` when the method identifier is
missing or empty — JS `if (!method)`). -/
def extractStaticCallResource : PhpNode → Option (String × String)
  | .call (.staticlookup (.pname resource) (.identifier m)) _ =>
    if m == "" then none else some (resource, m)
  | _ => none

/-- JS `extractNewResource` (part_002 lines 454-457). -/
def extractNewResource : PhpNode → Option String
  | .pnew (.pname n) _ => some n
  | _ => none

/-- JS `extractResourceProperty` (part_002 lines 462-482): the property name
of a `$this->resource->prop` expression. -/
def extractResourceProperty : PhpNode → Option String
  | .propertylookup (.propertylookup (.pvariable v) (.identifier innerName)) offset =>
    if v == "this" && innerName == "resource" then
      match offset with
      | .identifier p => some p
      | _ => none
    else none
  | _ => none

/-- JS `resourceExists` (part_002 lines 512-515): trust the name when no
resources directory is supplied, otherwise check for `{name}.php`. -/
def resourceExists (resourceName : String) (resourcesDir : Option (List String)) : Bool :=
  match resourcesDir with
  | none => true
  | some files => files.contains resourceName

/-- JS `cast.match(/([A-Za-z0-9_\\]+)$/)` character class. -/
def isCastNameChar (c : Char) : Bool := c.isAlphanum || c == '_' || c == '\\'

/-- The short name a cast resolves to (part_002 lines 491-492): the trailing
identifier run with leading backslashes stripped, or the whole cast string
when the regex does not match. -/
def shortCastName (cast : String) : String :=
  let suffixRun := (cast.data.reverse.takeWhile isCastNameChar).reverse
  if suffixRun.isEmpty then cast
  else String.mk (suffixRun.dropWhile (fun c => c == '\\'))

/-- JS `mapCastToType` (part_002 lines 487-507): resolve the cast name against
the enums directory (registering the parsed enum in `collectedEnums`), else
fall back to the primitive mapping. -/
def mapCastToType (cast : String) (enumsDir : List (String × PhpNode))
    (collectedEnums : CollectedEnums) : String × CollectedEnums :=
  let short := shortCastName cast
  match jsObjGet enumsDir short with
  | some enumAst =>
    match parseEnumContent "label" (some enumAst) with
    | some d => (d.name, jsObjInsert collectedEnums d.name d)
    | none => (mapPhpTypeToTs cast, collectedEnums)
  | none => (mapPhpTypeToTs cast, collectedEnums)

/-- JS `resourceClass.replace(/Resource$/, '')`. -/
def stripResourceSuffix (s : String) : String :=
  if jsEndsWith s "Resource" then String.mk (s.data.take (s.data.length - 8)) else s

/-- One suffix position test for the regex `/array\s*\{/`. -/
def startsArrayBrace : List Char → Bool
  | 'a' :: 'r' :: 'r' :: 'a' :: 'y' :: rest =>
    (match rest.dropWhile Char.isWhitespace with
     | c :: _ => c == '\x7b'
     | [] => false)
  | _ => false

/-- JS `/array\s*\{/.test(s)`. -/
def testArrayBrace (s : String) : Bool := s.data.tails.any startsArrayBrace

/-- The model-cast lookup block of the `$this->resource->prop` branch
(part_002 lines 608-628); `none` means the block fell through. -/
def inferFromCasts (prop : String) (options : ParseResourceOptions)
    (collectedEnums : CollectedEnums) : Option (ResourceFieldInfo × CollectedEnums) :=
  match options.modelsDir with
  | none => none
  | some models =>
    if options.resourceClass = "" then none   -- JS `if (modelsDir && resourceClass)`
    else
      match jsObjGet models (stripResourceSuffix options.resourceClass) with
      | none => none
      | some modelAst =>
        match truthyGet (parseModelCasts (some modelAst)) prop with
        | none => none   -- JS `if (casts[prop])`: missing or empty cast
        | some cast =>
          if jsStartsWith (jsTrim cast) "\x7b" || jsIncludes (jsTrim cast) ":" ||
              testArrayBrace (jsTrim cast) then
            some (⟨jsTrim cast, false⟩, collectedEnums)
          else
            some (⟨(mapCastToType cast options.enumsDir collectedEnums).1, false⟩,
              (mapCastToType cast options.enumsDir collectedEnums).2)

/-- The `$this->resource->prop` branch of `inferTypeFromAstNode` (part_002
lines 594-636). -/
def inferFromResourceProperty (prop : String) (options : ParseResourceOptions)
    (collectedEnums : CollectedEnums) : ResourceFieldInfo × CollectedEnums :=
  if jsStartsWith (jsToLower prop) "is_" || jsStartsWith (jsToLower prop) "has_" ||
      isHasCamel prop then
    (⟨"boolean", false⟩, collectedEnums)
  else if prop = "id" || jsEndsWith prop "_id" || jsToLower prop = "uuid" ||
      jsEndsWith prop "Id" then
    (⟨"string", false⟩, collectedEnums)
  else
    match inferFromCasts prop options collectedEnums with
    | some r => r
    | none =>
      if jsEndsWith prop "_at" || jsEndsWith prop "At" then (⟨"string", false⟩, collectedEnums)
      else (⟨"string", false⟩, collectedEnums)

/-- JS `${relationName[0].toUpperCase()}${relationName.slice(1)}Resource`;
only reached for non-empty `relationName` (the empty case throws first). -/
def jsTitleCaseResource (relationName : String) : String :=
  match relationName.data with
  | c :: rest => String.mk (c.toUpper :: rest) ++ "Resource"
  | [] => "Resource"

/-- The bare-`whenLoaded` check of the `call` branch (part_002 lines 558-577),
falling through to the final `any` fallback for every other call.  On an empty
relation name the JS code evaluates `relationName[0].toUpperCase()` =
`undefined.toUpperCase()` and throws; this is the `Except.error` case. -/
def inferWhenLoadedOrAny (what : PhpNode) (args : List PhpNode)
    (options : ParseResourceOptions) (collectedEnums : CollectedEnums)
    (optional : Bool) : Except String (ResourceFieldInfo × CollectedEnums) :=
  match what with
  | .propertylookup _ (.identifier nm) =>
    if nm == "whenLoaded" then
      match options.resourcesDir with
      | some files =>
        match args with
        | .pstring relationName :: _ =>
          if relationName = "" then
            .error "TypeError: Cannot read properties of undefined (reading 'toUpperCase')"
          else if files.contains (jsTitleCaseResource relationName) then
            .ok (⟨jsTitleCaseResource relationName, true⟩, collectedEnums)
          else .ok (⟨"Record<string, any>", true⟩, collectedEnums)
        | _ => .ok (⟨"Record<string, any>", true⟩, collectedEnums)
      | none => .ok (⟨"Record<string, any>", true⟩, collectedEnums)
    else .ok (⟨"any", optional⟩, collectedEnums)
  | _ => .ok (⟨"any", optional⟩, collectedEnums)

mutual
/-- JS `inferTypeFromAstNode` (part_002 lines 520-653).  The resolution order
is: docblock override, boolean-by-name heuristic, static resource call /
bare `whenLoaded`, `new Resource`, `$this->resource->prop`, nested array
literal, `any` fallback.  The thrown `TypeError` is `Except.error`; the
`collectedEnums` mutation is threaded as state. -/
def inferTypeFromAstNode (node : PhpNode) (key : String)
    (options : ParseResourceOptions) (collectedEnums : CollectedEnums) :
    Except String (ResourceFieldInfo × CollectedEnums) :=
  let optional := containsWhenLoaded node
  match options.docShape.bind (fun m => truthyGet m key) with
  | some t => .ok (⟨t, optional⟩, collectedEnums)
  | none =>
    if boolKeyHeuristic key then .ok (⟨"boolean", optional⟩, collectedEnums)
    else
      match node with
      | .call what args =>
        (match extractStaticCallResource (.call what args) with
         | some (resource, m) =>
           if resource = "Collection" then .ok (⟨"any[]", optional⟩, collectedEnums)
           else if m = "collection" ∨ m = "make" then
             if resourceExists resource options.resourcesDir then
               .ok (⟨resource ++ "[]", optional⟩, collectedEnums)
             else .ok (⟨"any[]", optional⟩, collectedEnums)
           else inferWhenLoadedOrAny what args options collectedEnums optional
         | none => inferWhenLoadedOrAny what args options collectedEnums optional)
      | .pnew w args =>
        (match extractNewResource (.pnew w args) with
         | some resource =>
           if resourceExists resource options.resourcesDir then
             .ok (⟨resource, optional⟩, collectedEnums)
           else .ok (⟨"any", optional⟩, collectedEnums)
         | none => .ok (⟨"any", optional⟩, collectedEnums))
      | n =>
        match extractResourceProperty n with
        | some prop =>
          .ok (inferFromResourceProperty prop options collectedEnums)
        | none =>
          match n with
          | .parray items =>
            (match parseArrayEntriesGo items options collectedEnums [] with
             | .error e => .error e
             | .ok (nestedFields, c') =>
               if nestedFields.isEmpty then .ok (⟨"any[]", optional⟩, c')
               else
                 .ok (⟨"\x7b " ++ String.intercalate "; " (nestedFields.map (fun p =>
                     p.1 ++ (if p.2.optional then "?" else "") ++ ": " ++ p.2.type)) ++ " \x7d",
                   optional⟩, c'))
          | _ => .ok (⟨"any", optional⟩, collectedEnums)

/-- Loop of JS `parseArrayEntries` (part_002 lines 658-686), with the result
object accumulated in `acc`.  Only string-keyed entries with non-empty keys
contribute; `result[key] = ...` is `jsObjInsert`.  The source also re-parses
array-valued entries to populate the (discarded) `nested` field; only that
second pass's effect on `collectedEnums` is observable and is modelled. -/
def parseArrayEntriesGo (items : List PhpNode) (options : ParseResourceOptions)
    (collectedEnums : CollectedEnums) (acc : List (String × ResourceFieldInfo)) :
    Except String (List (String × ResourceFieldInfo) × CollectedEnums) :=
  match items with
  | [] => .ok (acc, collectedEnums)
  | item :: rest =>
    match item with
    | .entry (some keyNode) value =>
      match getStringValue keyNode with
      | some key =>
        if key = "" then parseArrayEntriesGo rest options collectedEnums acc
        else
          match inferTypeFromAstNode value key options collectedEnums with
          | .error e => .error e
          | .ok (fieldInfo, c1) =>
            match (match value with
                   | .parray innerItems => parseArrayEntriesGo innerItems options c1 []
                   | _ => .ok ([], c1)) with
            | .error e => .error e
            | .ok (_, c2) =>
              parseArrayEntriesGo rest options c2 (jsObjInsert acc key fieldInfo)
      | none => parseArrayEntriesGo rest options collectedEnums acc
    | _ => parseArrayEntriesGo rest options collectedEnums acc
end

/-- JS `parseArrayEntries` (fresh result object). -/
def parseArrayEntries (items : List PhpNode) (options : ParseResourceOptions)
    (collectedEnums : CollectedEnums) :
    Except String (List (String × ResourceFieldInfo) × CollectedEnums) :=
  parseArrayEntriesGo items options collectedEnums []

/-- JS `parseResourceFieldsAst` (part_002 lines 692-732): `none` when there is
no class, no `toArray` method with a body, or its return is not an array
literal; otherwise the flat `key → ResourceFieldInfo` map.  The `TypeError`
thrown by the inference on degenerate input propagates out as `Except.error`
(the claimed behaviour under test in C6). -/
def parseResourceFieldsAst (ast? : Option PhpNode) (options : ParseResourceOptions)
    (collectedEnums : CollectedEnums) :
    Except String (Option (List (String × ResourceFieldInfo)) × CollectedEnums) :=
  match ast? with
  | none => .ok (none, collectedEnums)
  | some ast =>
    match findNodeByKind ast "class" with
    | none => .ok (none, collectedEnums)
    | some classNode =>
      let className := match classNode with | .pclass n _ => n | _ => ""
      match (findAllNodesByKind classNode "method").find? (methodHasName · "toArray") with
      | some (.method _ (some body)) =>
        (match findNodeByKind body "return" with
         | some (.preturn (some (.parray items))) =>
           (match parseArrayEntries items { options with resourceClass := className }
               collectedEnums with
            | .error e => .error e
            | .ok (entries, c') => .ok (some entries, c'))
         | _ => .ok (none, collectedEnums))
      | _ => .ok (none, collectedEnums)

/-! ### Resource declaration emission
(`generateSingleResourceTypeScript`, src/generators/resources.ts lines 41-102)

The TypeScript printer (`typescript` npm package) is an external collaborator;
emission is modelled structurally: the import name list and the type-alias
payload are recorded instead of printed text. -/

inductive ResourceDeclBody where
  | fallbackRecord
  | typeLiteral (fields : List (String × String × Bool))
  deriving DecidableEq

structure ResourceDeclaration where
  importedEnums : List String
  className : String
  body : ResourceDeclBody
  seeComment : Option String
  mapComment : Option String
  deriving DecidableEq

/-- JS `generateSingleResourceTypeScript`: compute the per-schema used-enum
set via `type.includes(enumName)`, sort it, and emit one type alias.
`referencedEnums` models the run-wide `Set` (no duplicates in real runs). -/
def generateSingleResourceTypeScript (className : String)
    (fields : List (String × ResourceFieldInfo)) (isFallback : Bool)
    (referencedEnums : List String) (phpFile : Option String) : ResourceDeclaration :=
  let usedEnums := referencedEnums.filter (fun e => fields.any (fun f => jsIncludes f.2.type e))
  { importedEnums := jsSort strLe usedEnums
    className := className
    body :=
      if isFallback then .fallbackRecord
      else .typeLiteral (fields.map (fun f => (f.1, f.2.type, f.2.optional)))
    seeComment := phpFile.map (fun f => "/** @see " ++ f ++ " */")
    mapComment := phpFile.map (fun _ => "//# sourceMappingURL=" ++ className ++ ".d.ts.map") }

/-! ### Enum declaration and runtime emission
(`generateSingleEnumTypeScript` / `generateSingleEnumRuntime`,
src/generators/enums.ts lines 263-298 and 351-373) -/

/-- JS `enumDef.cases.some(c => c.label)` — note the truthiness: an
empty-string label does not count. -/
def hasLabels (enumDef : EnumDefinition) : Bool :=
  enumDef.cases.any (fun c =>
    match c.label with
    | some s => s ≠ ""
    | none => false)

/-- JS `c.label || String(c.value)` (the `||` falls through on `undefined`
and on the empty string). -/
def labelLiteral (c : EnumCase) : String :=
  match c.label with
  | some s => if s = "" then EnumVal.toStr c.value else s
  | none => EnumVal.toStr c.value

/-- Structural model of one emitted enum declaration: an ambient
`declare const` with `{ value; label }` members, or a conventional `enum`. -/
inductive EnumDeclEmit where
  | declareConst (name : String) (props : List (String × String × String))
  | conventionalEnum (name : String) (members : List (String × EnumVal))
  deriving DecidableEq

structure EnumDtsOutput where
  seeComment : Option String
  decl : EnumDeclEmit
  mapComment : Option String
  deriving DecidableEq

/-- JS `generateSingleEnumTypeScript` (source-map variant, enums.ts lines
263-298): labelled enums become a typed constant whose members pair the value
literal with `c.label || String(c.value)`; unlabelled enums a conventional
enum of the raw case values. -/
def generateSingleEnumTypeScript (enumDef : EnumDefinition) (phpFile : Option String) :
    EnumDtsOutput :=
  { seeComment := phpFile.map (fun f => "/** @see " ++ f ++ " */")
    decl :=
      if hasLabels enumDef then
        EnumDeclEmit.declareConst enumDef.name
          (enumDef.cases.map (fun c => (c.key, EnumVal.toStr c.value, labelLiteral c)))
      else
        EnumDeclEmit.conventionalEnum enumDef.name (enumDef.cases.map (fun c => (c.key, c.value)))
    mapComment := phpFile.map (fun _ => "//# sourceMappingURL=" ++ enumDef.name ++ ".d.ts.map") }

inductive EnumRuntimeValue where
  | objectLit (value : String) (label : String)
  | numberLit (n : Int)
  | stringLit (s : String)
  deriving DecidableEq

structure EnumRuntimeOutput where
  name : String
  props : List (String × EnumRuntimeValue)
  deriving DecidableEq

/-- JS `generateSingleEnumRuntime` (enums.ts lines 351-373); `prettyPrint`
only affects printed formatting, which the structural model does not carry. -/
def generateSingleEnumRuntime (enumDef : EnumDefinition) (_prettyPrint : Bool := true) :
    EnumRuntimeOutput :=
  { name := enumDef.name
    props := enumDef.cases.map (fun c =>
      (c.key,
        if hasLabels enumDef then
          EnumRuntimeValue.objectLit (EnumVal.toStr c.value) (labelLiteral c)
        else
          match c.value with
          | .num n => EnumRuntimeValue.numberLit n
          | .str s => EnumRuntimeValue.stringLit s)) }

/-! ### Source maps (`src/utils/source-map.ts`) -/

structure SourceMapping where
  generatedLine : Nat
  generatedColumn : Nat
  sourceLine : Nat
  sourceColumn : Nat
  deriving DecidableEq

/-- Base-32 digits of the VLQ body, least significant first, continuation bit
(32) on every non-final digit.  The JS do-while loop divides by 32 each
iteration, so `fuel := v` always suffices; the fuel-0 fallback is never hit. -/
def vlqDigitsAux : Nat → Nat → List Nat
  | 0, v => [v % 32]
  | fuel + 1, v =>
    let digit := v % 32
    let rest := v / 32
    if rest = 0 then [digit] else (digit + 32) :: vlqDigitsAux fuel rest

def BASE64_CHARS : List Char :=
  "ABCDEFGHIJKLMNOPQRSTUVWXYZabcdefghijklmnopqrstuvwxyz0123456789+/".data

/-- JS `encodeVLQ` (source-map.ts lines 19-33): sign bit in the lowest
position, then base-64 digit characters.  The JS 32-bit shifts are exact for
the line/column deltas in scope (`|value| < 2^30`). -/
def encodeVLQ (value : Int) : String :=
  let vlq : Nat := if value < 0 then 2 * value.natAbs + 1 else 2 * value.toNat
  String.mk ((vlqDigitsAux vlq vlq).map (fun d => BASE64_CHARS.getD d 'A'))

structure VlqState where
  genCol : Int
  srcIdx : Int
  srcLine : Int
  srcCol : Int
  deriving DecidableEq

/-- JS `encodeSegment` (source-map.ts lines 39-58). -/
def encodeSegment (generatedColumn sourceIndex sourceLine sourceColumn : Int)
    (prevState : VlqState) : String × VlqState :=
  (encodeVLQ (generatedColumn - prevState.genCol) ++
     encodeVLQ (sourceIndex - prevState.srcIdx) ++
     encodeVLQ (sourceLine - prevState.srcLine) ++
     encodeVLQ (sourceColumn - prevState.srcCol),
   ⟨generatedColumn, sourceIndex, sourceLine, sourceColumn⟩)

/-- The comparator of `encodeMappings`: sort by generated line, then column
(ties keep input order — JS `Array.prototype.sort` is stable). -/
def mappingLe (a b : SourceMapping) : Bool :=
  if a.generatedLine = b.generatedLine then decide (a.generatedColumn ≤ b.generatedColumn)
  else decide (a.generatedLine < b.generatedLine)

/-- One iteration of the `encodeMappings` loop (source-map.ts lines 75-92):
pad `lines` with empty slots up to the mapping's generated line (resetting the
column state when any line is pushed), then append the encoded segment to
that line's slot.  Generated lines are 1-based; the JS code throws for line 0,
which is outside the modelled domain. -/
def encodeStep (acc : List (List String) × VlqState) (m : SourceMapping) :
    List (List String) × VlqState :=
  let lines := acc.1
  let st := acc.2
  let padded :=
    if lines.length < m.generatedLine then
      (lines ++ List.replicate (m.generatedLine - lines.length) [], { st with genCol := 0 })
    else (lines, st)
  let seg := encodeSegment (m.generatedColumn : Int) 0 ((m.sourceLine : Int) - 1)
    (m.sourceColumn : Int) padded.2
  (padded.1.set (m.generatedLine - 1)
     ((padded.1.getD (m.generatedLine - 1) []) ++ [seg.1]), seg.2)

/-- The per-line segment lists built by `encodeMappings` for an
already-sorted input. -/
def buildMappingLines (sorted : List SourceMapping) : List (List String) :=
  (sorted.foldl encodeStep ([], ⟨0, 0, 0, 0⟩)).1

/-- JS `encodeMappings` (source-map.ts lines 63-95). -/
def encodeMappings (mappings : List SourceMapping) : String :=
  if mappings.isEmpty then ""
  else
    String.intercalate ";"
      ((buildMappingLines (jsSort mappingLe mappings)).map (String.intercalate ","))

structure SourceMapJson where
  version : Nat
  file : String
  sourceRoot : String
  sources : List String
  names : List String
  mappings : String
  deriving DecidableEq

/-- JS `generateSourceMap` (source-map.ts lines 109-123), without the final
`JSON.stringify` (plain serialisation of this record). -/
def generateSourceMap (file : String) (sources : List String)
    (mappings : List SourceMapping) : SourceMapJson :=
  ⟨3, file, "", sources, [], encodeMappings mappings⟩

/-! ### Output directory model (`cleanOutputDir`, `generateEnums`)

The output directory is a finite map from file name to generated content;
`writable = false` models a write failure (`writeFileSync` throwing), with the
`Except.error` payload being the directory contents an observer sees at the
moment of the failure. -/

inductive GeneratedFile where
  | enumDts (d : EnumDtsOutput)
  | enumJs (r : EnumRuntimeOutput)
  | barrel (lines : List String)
  | packageJson (packageName : String)
  deriving DecidableEq

abbrev OutputDir := List (String × GeneratedFile)

/-- JS `cleanOutputDir` (src/utils/file.ts lines 37-46): unlink every file
ending in `.d.ts` or `.js`, keeping everything else (`package.json`). -/
def cleanOutputDir (dir : OutputDir) : OutputDir :=
  dir.filter (fun f => !(jsEndsWith f.1 ".d.ts" || jsEndsWith f.1 ".js"))

/-- JS `writeFileEnsureDir` (file.ts lines 18-22) under the writable flag. -/
def writeFileEnsureDir (writable : Bool) (dir : OutputDir) (name : String)
    (content : GeneratedFile) : Except OutputDir OutputDir :=
  if writable then .ok (jsObjInsert dir name content) else .error dir

/-- The write list `generateEnums` performs after cleaning, in program order:
per-enum `.d.ts` and `.js` files, the two barrel files, then `package.json`
(src/generators/enums.ts lines 422-462; the `.d.ts.map` write only happens
for definitions carrying an origin location and does not affect the claims). -/
def enumOutputWrites (enums : List EnumDefinition) (packageName : String) :
    List (String × GeneratedFile) :=
  (enums.flatMap (fun d =>
    [(d.name ++ ".d.ts", GeneratedFile.enumDts (generateSingleEnumTypeScript d none)),
     (d.name ++ ".js", GeneratedFile.enumJs (generateSingleEnumRuntime d true))]))
  ++ [("index.d.ts", GeneratedFile.barrel (enums.map (fun d =>
        "export \x7b " ++ d.name ++ " \x7d from './" ++ d.name ++ ".js';"))),
      ("index.js", GeneratedFile.barrel (enums.map (fun d =>
        "export \x7b " ++ d.name ++ " \x7d from './" ++ d.name ++ ".js';"))),
      ("package.json", GeneratedFile.packageJson packageName)]

/-- Sequential writes; the first failure aborts (the JS exception unwinds),
leaving the directory in its current state. -/
def writeSequential (writable : Bool) :
    OutputDir → List (String × GeneratedFile) → Except OutputDir OutputDir
  | dir, [] => .ok dir
  | dir, (n, c) :: rest =>
    match writeFileEnsureDir writable dir n c with
    | .ok dir' => writeSequential writable dir' rest
    | .error d => .error d

/-- JS `generateEnums` (enums.ts lines 412-463): clean the output directory
first, then write every generated file.  `enums` is the `collectEnums` result
(directory scanning is collaborator I/O). -/
def generateEnums (writable : Bool) (outputDir : OutputDir)
    (enums : List EnumDefinition) (packageName : String) : Except OutputDir OutputDir :=
  writeSequential writable (cleanOutputDir outputDir) (enumOutputWrites enums packageName)

/-! ## Concrete fixtures used by witnesses and counterexamples -/

/-- `$this->whenLoaded('author')` — a bare conditional relation accessor. -/
def wlBareNode : PhpNode :=
  .call (.propertylookup (.pvariable "this") (.identifier "whenLoaded")) [.pstring "author"]

/-- `UserResource::collection($this->whenLoaded('author'))`. -/
def wrappedWlNode : PhpNode :=
  .call (.staticlookup (.pname "UserResource") (.identifier "collection")) [wlBareNode]

/-- `Collection::make($this->resource->items)`. -/
def collectionMakeNode : PhpNode :=
  .call (.staticlookup (.pname "Collection") (.identifier "make"))
    [.propertylookup (.propertylookup (.pvariable "this") (.identifier "resource"))
      (.identifier "items")]

/-- The PHP resource
`class PostResource { public function toArray($r): array {
   return ['rel' => $this->whenLoaded('')]; } }` as parsed by php-parser. -/
def c6FailingAst : PhpNode :=
  .other "program" [.pclass "PostResource"
    [.method "toArray" (some (.block [.preturn (some (.parray
      [.entry (some (.pstring "rel"))
        (.call (.propertylookup (.pvariable "this") (.identifier "whenLoaded"))
          [.pstring ""])]))]))]]

/-- Does an emitted enum declaration carry per-case `label` members? -/
def declaresLabels : EnumDeclEmit → Bool
  | .declareConst _ _ => true
  | .conventionalEnum _ _ => false

/-- An enum with a single case whose attached label is the empty string. -/
def c10EmptyLabelEnum : EnumDefinition :=
  ⟨"E", some "string", [⟨"A", .str "a", some ""⟩]⟩

/-- `Pending` labelled `'Pending Order'`, `Shipped` unlabelled. -/
def c10WitnessEnum : EnumDefinition :=
  ⟨"OrderStatus", some "string",
    [⟨"Pending", .str "pending", some "Pending Order"⟩, ⟨"Shipped", .str "shipped", none⟩]⟩

/-- A stale output directory: one previously generated declaration file plus
the manifest. -/
def c9StaleDir : OutputDir :=
  [("Old.d.ts", .barrel []), ("package.json", .packageJson "old")]

def c9Enum : EnumDefinition := ⟨"Status", some "string", [⟨"A", .str "a", none⟩]⟩

/-- One `self::K => 'label'` match arm. -/
def mkLabelArm (p : String × String) : PhpNode :=
  .matcharm (some [.staticlookup (.pname "self") (.identifier p.1)]) (.pstring p.2)

/-- A PHP enum artifact AST: string-backed cases `cs` (key, value) followed by
a label method whose body is a `match($this)` over `self::K => 'label'` arms. -/
def mkEnumAst (name : String) (backing : Option String) (labelMethodName : String)
    (cs arms : List (String × String)) : PhpNode :=
  .penum name backing
    ((cs.map (fun c => .enumcase c.1 (some (.pstring c.2)))) ++
     [.method labelMethodName (some (.block [.preturn (some
        (.pmatch (.pvariable "this") (arms.map mkLabelArm)))]))])

/-- A string-backed enum artifact `OrderStatus` for the cast round-trip. -/
def c7EnumAst : PhpNode :=
  mkEnumAst "OrderStatus" (some "string") "label" [("Pending", "pending")] []

/-- The definition `parseEnumContent` extracts from `c7EnumAst`. -/
def c7EnumDef : EnumDefinition :=
  ⟨"OrderStatus", some "string", [⟨"Pending", .str "pending", none⟩]⟩

/-- An `Order` model whose `casts` property maps `status` to
`OrderStatus::class`. -/
def c7ModelAst : PhpNode :=
  .pclass "Order" [.propertystatement [.property "casts" (some (.parray
    [.entry (some (.pstring "status"))
      (.staticlookup (.pname "OrderStatus") (.identifier "class"))]))]]

/-- An `OrderResource` whose `toArray` returns `['status' => $this->resource->status]`. -/
def c7ResourceAst : PhpNode :=
  .pclass "OrderResource" [.method "toArray" (some (.block [.preturn (some (.parray
    [.entry (some (.pstring "status"))
      (.propertylookup (.propertylookup (.pvariable "this") (.identifier "resource"))
        (.identifier "status"))]))]))]

/-- Parse options wiring the model and enum directories for the fixture. -/
def c7Options : ParseResourceOptions :=
  { modelsDir := some [("Order", c7ModelAst)], enumsDir := [("OrderStatus", c7EnumAst)] }

/-- The largest generated line number mentioned in a mapping list. -/
def maxGeneratedLine (l : List SourceMapping) : Nat :=
  l.foldr (fun m acc => max m.generatedLine acc) 0

/-- Two mappings that tie on `(generatedLine, generatedColumn)` but differ in
source position — the C8 counterexample pair. -/
def tieMappingA : SourceMapping := ⟨1, 0, 1, 0⟩

def tieMappingB : SourceMapping := ⟨1, 0, 2, 0⟩

/-- Unfolding equation for `inferTypeFromAstNode` (the structural-recursion
compiler does not generate one); the `optional` let-binding is inlined. -/
theorem inferTypeFromAstNode_eq (node : PhpNode) (key : String)
    (options : ParseResourceOptions) (collectedEnums : CollectedEnums) :
    inferTypeFromAstNode node key options collectedEnums =
      match options.docShape.bind (fun m => truthyGet m key) with
      | some t => .ok (⟨t, containsWhenLoaded node⟩, collectedEnums)
      | none =>
        if boolKeyHeuristic key then
          .ok (⟨"boolean", containsWhenLoaded node⟩, collectedEnums)
        else
          match node with
          | .call what args =>
            (match extractStaticCallResource (.call what args) with
             | some (resource, m) =>
               if resource = "Collection" then
                 .ok (⟨"any[]", containsWhenLoaded (.call what args)⟩, collectedEnums)
               else if m = "collection" ∨ m = "make" then
                 if resourceExists resource options.resourcesDir then
                   .ok (⟨resource ++ "[]", containsWhenLoaded (.call what args)⟩, collectedEnums)
                 else .ok (⟨"any[]", containsWhenLoaded (.call what args)⟩, collectedEnums)
               else inferWhenLoadedOrAny what args options collectedEnums
                 (containsWhenLoaded (.call what args))
             | none => inferWhenLoadedOrAny what args options collectedEnums
                 (containsWhenLoaded (.call what args)))
          | .pnew w args =>
            (match extractNewResource (.pnew w args) with
             | some resource =>
               if resourceExists resource options.resourcesDir then
                 .ok (⟨resource, containsWhenLoaded (.pnew w args)⟩, collectedEnums)
               else .ok (⟨"any", containsWhenLoaded (.pnew w args)⟩, collectedEnums)
             | none => .ok (⟨"any", containsWhenLoaded (.pnew w args)⟩, collectedEnums))
          | n =>
            match extractResourceProperty n with
            | some prop => .ok (inferFromResourceProperty prop options collectedEnums)
            | none =>
              match n with
              | .parray items =>
                (match parseArrayEntriesGo items options collectedEnums [] with
                 | .error e => .error e
                 | .ok (nestedFields, c') =>
                   if nestedFields.isEmpty then
                     .ok (⟨"any[]", containsWhenLoaded (.parray items)⟩, c')
                   else
                     .ok (⟨"\x7b " ++ String.intercalate "; " (nestedFields.map (fun p =>
                         p.1 ++ (if p.2.optional then "?" else "") ++ ": " ++ p.2.type)) ++ " \x7d",
                       containsWhenLoaded (.parray items)⟩, c'))
              | _ => .ok (⟨"any", containsWhenLoaded n⟩, collectedEnums) := by
  cases node <;> rfl

/-! ## C1 — docblock override -/

/-- C1 (amended): whenever `docShapeOverride[key]` exists (and is non-empty,
JS truthiness), `inferTypeFromAstNode` returns its type verbatim for every
expression shape — so the stage does precede the boolean-by-name heuristic
and every later stage — but `optional` is `containsWhenLoaded node`, not
always `false`. -/
theorem c1_docblock_override_amended (node : PhpNode) (key : String)
    (options : ParseResourceOptions) (collectedEnums : CollectedEnums) (t : String)
    (h : options.docShape.bind (fun m => truthyGet m key) = some t) :
    inferTypeFromAstNode node key options collectedEnums
      = .ok (⟨t, containsWhenLoaded node⟩, collectedEnums) := by
  rw [inferTypeFromAstNode_eq, h]

/-- Witness for `c1_docblock_override_amended` at a concrete input: the key
`status` has the docblock entry `string`, and the right-hand side is a bare
property access. -/
theorem c1_docblock_override_witness :
    inferTypeFromAstNode (.pstring "v") "status"
        { docShape := some [("status", "string")] } []
      = .ok (⟨"string", false⟩, []) :=
  c1_docblock_override_amended (.pstring "v") "status"
    { docShape := some [("status", "string")] } [] "string" rfl

/-- C1 counterexample: with docblock entry `rel: string` and right-hand side
`$this->whenLoaded('author')` the docblock type is returned verbatim, but
`optional` is `true`, not `false` as the claim states. -/
theorem c1_docblock_optional_counterexample :
    inferTypeFromAstNode wlBareNode "rel" { docShape := some [("rel", "string")] } []
        = .ok (⟨"string", true⟩, [])
      ∧ (⟨"string", true⟩ : ResourceFieldInfo) ≠ ⟨"string", false⟩ :=
  ⟨rfl, by decide⟩

/-! ## C2 — conditional relation accessors force `optional = true` -/

/-- A `$this->resource->prop` expression contains no call node, hence no
conditional relation accessor. -/
theorem extractResourceProperty_no_whenLoaded (n : PhpNode) (p : String)
    (h : extractResourceProperty n = some p) : containsWhenLoaded n = false := by
  unfold extractResourceProperty at h
  split at h
  · split at h
    · split at h
      · rfl
      · simp at h
    · simp at h
  · simp at h

/-- The bare-`whenLoaded` continuation returns `optional = true` on the
`whenLoaded` paths and the passed-through `optional` otherwise. -/
theorem inferWhenLoadedOrAny_optional (what : PhpNode) (args : List PhpNode)
    (options : ParseResourceOptions) (c : CollectedEnums) (opt : Bool)
    (fi : ResourceFieldInfo) (c' : CollectedEnums)
    (h : inferWhenLoadedOrAny what args options c opt = .ok (fi, c')) :
    fi.optional = true ∨ fi.optional = opt := by
  unfold inferWhenLoadedOrAny at h
  repeat' split at h
  all_goals first
    | (cases h
       first
         | exact Or.inl rfl
         | exact Or.inr rfl)
    | exact absurd h (by simp)

/-- The cast-lookup block always yields `optional = false`. -/
theorem inferFromCasts_optional (prop : String) (options : ParseResourceOptions)
    (c : CollectedEnums) (fi : ResourceFieldInfo) (c' : CollectedEnums)
    (h : inferFromCasts prop options c = some (fi, c')) : fi.optional = false := by
  unfold inferFromCasts at h
  repeat' split at h
  all_goals first
    | (cases h; rfl)
    | simp_all

/-- The `$this->resource->prop` branch always yields `optional = false`. -/
theorem inferFromResourceProperty_optional (prop : String)
    (options : ParseResourceOptions) (c : CollectedEnums) :
    (inferFromResourceProperty prop options c).1.optional = false := by
  unfold inferFromResourceProperty
  split
  · rfl
  · split
    · rfl
    · split
      · rename_i r heq
        obtain ⟨fi0, c0⟩ := r
        exact inferFromCasts_optional _ _ _ _ _ heq
      · split
        · rfl
        · rfl

/-- C2 (confirmed): whenever the source expression contains a `whenLoaded`
call — bare, nested inside a resource-wrapping call, or anywhere else — every
successfully inferred `ResourceFieldInfo` has `optional = true`. -/
theorem c2_whenloaded_optional (node : PhpNode) (key : String)
    (options : ParseResourceOptions) (collectedEnums : CollectedEnums)
    (fi : ResourceFieldInfo) (c' : CollectedEnums)
    (h : containsWhenLoaded node = true)
    (hok : inferTypeFromAstNode node key options collectedEnums = .ok (fi, c')) :
    fi.optional = true := by
  rw [inferTypeFromAstNode_eq] at hok
  split at hok
  · cases hok
    exact h
  · split at hok
    · cases hok
      exact h
    · split at hok
      · rename_i what args
        split at hok
        · split at hok
          · cases hok; exact h
          · split at hok
            · split at hok
              · cases hok; exact h
              · cases hok; exact h
            · rcases inferWhenLoadedOrAny_optional _ _ _ _ _ _ _ hok with h1 | h1
              · exact h1
              · rw [h1]; exact h
        · rcases inferWhenLoadedOrAny_optional _ _ _ _ _ _ _ hok with h1 | h1
          · exact h1
          · rw [h1]; exact h
      · split at hok
        · split at hok
          · cases hok; exact h
          · cases hok; exact h
        · cases hok; exact h
      · rename_i n hc hn
        split at hok
        · rename_i prop hprop
          exfalso
          have hfalse := extractResourceProperty_no_whenLoaded _ _ hprop
          simp [h] at hfalse
        · split at hok
          · split at hok
            · simp at hok
            · split at hok
              · cases hok; exact h
              · cases hok; exact h
          · cases hok; exact h

/-- Witness for `c2_whenloaded_optional` at the bare accessor
`$this->whenLoaded('author')`. -/
theorem c2_whenloaded_optional_witness :
    containsWhenLoaded wlBareNode = true
      ∧ (⟨"Record<string, any>", true⟩ : ResourceFieldInfo).optional = true :=
  ⟨rfl, c2_whenloaded_optional wlBareNode "author" {} [] ⟨"Record<string, any>", true⟩ []
    rfl rfl⟩

/-! ## C3 — boolean-by-name heuristic -/

/-- C3 (amended): with no (truthy) docblock entry for `key`, any key matching
the `is_`/`has_`/camel-case heuristic gets type `boolean` regardless of the
expression shape, with `optional = containsWhenLoaded node` (not always
`false`). -/
theorem c3_bool_heuristic_amended (node : PhpNode) (key : String)
    (options : ParseResourceOptions) (collectedEnums : CollectedEnums)
    (hd : options.docShape.bind (fun m => truthyGet m key) = none)
    (hb : boolKeyHeuristic key = true) :
    inferTypeFromAstNode node key options collectedEnums
      = .ok (⟨"boolean", containsWhenLoaded node⟩, collectedEnums) := by
  rw [inferTypeFromAstNode_eq, hd, hb]
  rfl

/-- Witness for `c3_bool_heuristic_amended`: key `is_admin` over a plain
property access infers `boolean` with `optional = false`. -/
theorem c3_bool_heuristic_witness :
    inferTypeFromAstNode
        (.propertylookup (.propertylookup (.pvariable "this") (.identifier "resource"))
          (.identifier "admin")) "is_admin" {} []
      = .ok (⟨"boolean", false⟩, []) :=
  c3_bool_heuristic_amended
    (.propertylookup (.propertylookup (.pvariable "this") (.identifier "resource"))
      (.identifier "admin")) "is_admin" {} [] rfl rfl

/-- C3 counterexample: for key `is_admin` with right-hand side
`$this->whenLoaded('author')` (and no docblock) the result is
`{ type: boolean, optional: true }`, not `optional: false` as claimed. -/
theorem c3_bool_heuristic_counterexample :
    inferTypeFromAstNode wlBareNode "is_admin" {} [] = .ok (⟨"boolean", true⟩, [])
      ∧ (⟨"boolean", true⟩ : ResourceFieldInfo) ≠ ⟨"boolean", false⟩ :=
  ⟨rfl, by decide⟩

/-! ## C4 — resource-wrapping calls -/

/-- C4 (amended): for a `Resource::collection(...)`/`Resource::make(...)`
call whose class name is not the special-cased `Collection`, the type is
`{Resource}[]` when the name resolves (or no resources directory is supplied)
and `any[]` otherwise; `new Resource(...)` yields the singular `{Resource}` or
`any`; never an error.  The earlier docblock/boolean stages must not fire. -/
theorem c4_resource_wrapping_amended (resource m key : String) (args : List PhpNode)
    (options : ParseResourceOptions) (collectedEnums : CollectedEnums)
    (hd : options.docShape.bind (fun md => truthyGet md key) = none)
    (hb : boolKeyHeuristic key = false)
    (hm : m = "collection" ∨ m = "make") (hr : resource ≠ "Collection") :
    (inferTypeFromAstNode (.call (.staticlookup (.pname resource) (.identifier m)) args)
        key options collectedEnums
      = .ok (⟨if resourceExists resource options.resourcesDir then resource ++ "[]" else "any[]",
          containsWhenLoaded (.call (.staticlookup (.pname resource) (.identifier m)) args)⟩,
          collectedEnums))
    ∧ (inferTypeFromAstNode (.pnew (.pname resource) args) key options collectedEnums
      = .ok (⟨if resourceExists resource options.resourcesDir then resource else "any",
          containsWhenLoaded (.pnew (.pname resource) args)⟩, collectedEnums)) := by
  constructor
  · rw [inferTypeFromAstNode_eq, hd, hb]
    rcases hm with rfl | rfl <;>
      simp only [extractStaticCallResource, Bool.false_eq_true, if_false, beq_self_eq_true,
        String.reduceBEq, if_neg hr, true_or, or_true, if_true] <;>
      split <;> rfl
  · rw [inferTypeFromAstNode_eq, hd, hb]
    simp only [extractNewResource, Bool.false_eq_true, if_false]
    split <;> rfl

/-- Witness for `c4_resource_wrapping_amended`:
`UserResource::collection($this->whenLoaded('author'))` under key `author`
with no resources directory yields `UserResource[]` with `optional = true`,
and `new UserResource(...)` yields singular `UserResource`. -/
theorem c4_resource_wrapping_witness :
    inferTypeFromAstNode wrappedWlNode "author" {} [] = .ok (⟨"UserResource[]", true⟩, [])
      ∧ inferTypeFromAstNode (.pnew (.pname "UserResource") [wlBareNode]) "author" {} []
        = .ok (⟨"UserResource", true⟩, []) :=
  c4_resource_wrapping_amended "UserResource" "collection" "author" [wlBareNode] {} []
    rfl rfl (Or.inl rfl) (by decide)

/-- C4 counterexample: `Collection::make($this->resource->items)` with no
resources directory — the claim says the name is trusted, so the type should
be `Collection[]`; the code special-cases `Collection` and returns `any[]`. -/
theorem c4_collection_counterexample :
    inferTypeFromAstNode collectionMakeNode "items" {} [] = .ok (⟨"any[]", false⟩, [])
      ∧ "any[]" ≠ "Collection[]" :=
  ⟨rfl, by decide⟩

/-! ## C6 — the extractor throws on an empty relation name -/

/-- C6: on the failing input above — a degenerate empty relation-name string,
with a resources directory supplied — the resource entry point does *not*
return a result or `null`: the JS code evaluates
`relationName[0].toUpperCase()` on the empty string and throws a `TypeError`
to its caller, contradicting the spec's extractor contract. -/
theorem c6_extractor_throws_on_empty_relation :
    parseResourceFieldsAst (some c6FailingAst) { resourcesDir := some ["UserResource"] } []
      = .error "TypeError: Cannot read properties of undefined (reading 'toUpperCase')" :=
  rfl

/-! ## C9 — clean-before-write versus write failure -/

/-- With writes failing, the first attempted write aborts the pass, leaving
the directory exactly as it was when the write was attempted. -/
theorem writeSequential_unwritable (dir : OutputDir)
    (writes : List (String × GeneratedFile)) (hne : writes ≠ []) :
    writeSequential false dir writes = .error dir := by
  cases writes with
  | nil => exact absurd rfl hne
  | cons w rest => obtain ⟨n, c⟩ := w; rfl

/-- C9 (amended): `generateEnums` removes every previously generated
`.d.ts`/`.js` file (manifest excluded) *before* writing the new set, so when
the output directory is not writable the pass fails with the prior contents
already deleted — the controller does delete-then-fail-to-write, and prior
output is *not* left untouched. -/
theorem c9_write_failure_amended (outputDir : OutputDir)
    (enums : List EnumDefinition) (packageName : String) :
    generateEnums false outputDir enums packageName
      = .error (cleanOutputDir outputDir) := by
  unfold generateEnums
  apply writeSequential_unwritable
  simp [enumOutputWrites]

/-- C9 counterexample: a stale `Old.d.ts` exists alongside the manifest; a
regeneration whose writes fail leaves a directory that no longer contains
`Old.d.ts` (and contains none of the new files) — contradicting the claim
that prior output directory contents are left untouched. -/
theorem c9_delete_then_fail_counterexample :
    generateEnums false c9StaleDir [c9Enum] "pkg"
        = .error [("package.json", GeneratedFile.packageJson "old")]
      ∧ jsObjGet c9StaleDir "Old.d.ts" = some (GeneratedFile.barrel [])
      ∧ jsObjGet [("package.json", GeneratedFile.packageJson "old")] "Old.d.ts" = none :=
  ⟨rfl, rfl, rfl⟩

/-! ## C10 — label members in enum emission -/

/-- `find?` over a key-preserving map locates exactly the image of the unique
list element with the sought key. -/
theorem find?_key_map {β : Type} (l : List EnumCase) (c : EnumCase)
    (f : EnumCase → String × β) (hf : ∀ x, (f x).1 = x.key)
    (hc : c ∈ l) (hnodup : (l.map EnumCase.key).Nodup) :
    (l.map f).find? (fun p => p.1 == c.key) = some (f c) := by
  induction l with
  | nil => cases hc
  | cons x xs ih =>
    rw [List.map_cons, List.nodup_cons] at hnodup
    rcases List.mem_cons.mp hc with rfl | hmem
    · rw [List.map_cons, List.find?_cons_of_pos _ (by simp [hf c])]
    · have hne : ¬ x.key = c.key := by
        intro hkey
        exact hnodup.1 (hkey ▸ List.mem_map_of_mem EnumCase.key hmem)
      rw [List.map_cons, List.find?_cons_of_neg]
      · exact ih hmem hnodup.2
      · simp [hf x, hne]

/-- C10 (amended): for every enum in which at least one case carries a
*non-empty* label, every case — in particular one with no label or an
empty-string label — is emitted with a `label` member in both the declaration
and the runtime text, the label literal being the string form of the case's
value. -/
theorem c10_label_members_amended (d : EnumDefinition) (c : EnumCase)
    (hc : c ∈ d.cases) (hl : hasLabels d = true)
    (hnodup : (d.cases.map EnumCase.key).Nodup)
    (hnolabel : c.label.getD "" = "") :
    (match (generateSingleEnumTypeScript d none).decl with
     | .declareConst _ props => props.find? (fun p => p.1 == c.key)
     | .conventionalEnum _ _ => none)
      = some (c.key, EnumVal.toStr c.value, EnumVal.toStr c.value)
    ∧ (generateSingleEnumRuntime d true).props.find? (fun p => p.1 == c.key)
      = some (c.key, EnumRuntimeValue.objectLit (EnumVal.toStr c.value)
          (EnumVal.toStr c.value)) := by
  have hlab : labelLiteral c = EnumVal.toStr c.value := by
    unfold labelLiteral
    cases hL : c.label with
    | none => rfl
    | some s =>
      rw [hL, Option.getD_some] at hnolabel
      simp [hnolabel]
  constructor
  · unfold generateSingleEnumTypeScript
    simp only [hl, if_true]
    rw [find?_key_map d.cases c _ (fun x => rfl) hc hnodup, hlab]
  · unfold generateSingleEnumRuntime
    simp only [hl, if_true]
    rw [find?_key_map d.cases c _ (fun x => rfl) hc hnodup, hlab]

/-- Witness for `c10_label_members_amended`: in `c10WitnessEnum` the
uncovered case `Shipped` gets `label: 'shipped'` (its value) in both the
declaration and the runtime output. -/
theorem c10_label_members_witness :
    (match (generateSingleEnumTypeScript c10WitnessEnum none).decl with
     | .declareConst _ props => props.find? (fun p => p.1 == "Shipped")
     | .conventionalEnum _ _ => none) = some ("Shipped", "shipped", "shipped")
    ∧ (generateSingleEnumRuntime c10WitnessEnum true).props.find?
        (fun p => p.1 == "Shipped")
      = some ("Shipped", EnumRuntimeValue.objectLit "shipped" "shipped") :=
  c10_label_members_amended c10WitnessEnum ⟨"Shipped", .str "shipped", none⟩
    (by decide) rfl (by decide) rfl

/-- C10 counterexample: in `c10EmptyLabelEnum` the single case *does* carry a
label (the empty string, attachable via a `self::A => ''` match arm), yet —
because `cases.some(c => c.label)` uses JS truthiness — the emitted
declaration is a conventional enum with no `label` members at all, and the
runtime output is a bare string literal. -/
theorem c10_empty_label_counterexample :
    c10EmptyLabelEnum.cases.any (fun c => c.label.isSome) = true
      ∧ declaresLabels (generateSingleEnumTypeScript c10EmptyLabelEnum none).decl = false
      ∧ (generateSingleEnumRuntime c10EmptyLabelEnum true).props
          = [("A", EnumRuntimeValue.stringLit "a")] :=
  ⟨rfl, rfl, rfl⟩

/-! ## Generic facts about the JS helpers (substring test, stable sort) -/

/-- `containsSubAux` decides infix containment. -/
theorem containsSub_iff (sub l : List Char) :
    containsSubAux sub l = true ↔ sub <:+: l := by
  induction l with
  | nil =>
    simp [containsSubAux, List.isPrefixOf_iff_prefix]
  | cons c t ih =>
    simp [containsSubAux, List.isPrefixOf_iff_prefix, ih, List.infix_cons_iff]

/-- JS `includes` decides infix containment of the character sequences. -/
theorem jsIncludes_iff (s sub : String) :
    jsIncludes s sub = true ↔ sub.data <:+: s.data :=
  containsSub_iff sub.data s.data

theorem insertStable_perm {α : Type} (le : α → α → Bool) (x : α) (l : List α) :
    List.Perm (insertStable le x l) (x :: l) := by
  induction l with
  | nil => exact List.Perm.refl _
  | cons y ys ih =>
    unfold insertStable
    split
    · exact (ih.cons y).trans (List.Perm.swap x y ys)
    · exact List.Perm.refl _

theorem jsSort_perm_aux {α : Type} (le : α → α → Bool) (l acc : List α) :
    List.Perm (l.foldl (fun acc x => insertStable le x acc) acc) (acc ++ l) := by
  induction l generalizing acc with
  | nil => simp
  | cons x xs ih =>
    simp only [List.foldl_cons]
    refine (ih (insertStable le x acc)).trans ?_
    exact (((insertStable_perm le x acc).append_right xs)).trans List.perm_middle.symm

/-- The model of `Array.prototype.sort` permutes its input. -/
theorem jsSort_perm {α : Type} (le : α → α → Bool) (l : List α) :
    List.Perm (jsSort le l) l := by
  simpa using jsSort_perm_aux le l []

theorem insertStable_pairwise {α : Type} (le : α → α → Bool)
    (htrans : ∀ a b c, le a b = true → le b c = true → le a c = true)
    (htot : ∀ a b, le a b = true ∨ le b a = true)
    (x : α) (l : List α) (h : l.Pairwise (fun a b => le a b = true)) :
    (insertStable le x l).Pairwise (fun a b => le a b = true) := by
  induction l with
  | nil => simp [insertStable]
  | cons y ys ih =>
    rw [List.pairwise_cons] at h
    unfold insertStable
    split
    · rename_i hyx
      rw [List.pairwise_cons]
      refine ⟨?_, ih h.2⟩
      intro z hz
      rcases List.mem_cons.mp ((insertStable_perm le x ys).mem_iff.mp hz) with rfl | hzys
      · exact hyx
      · exact h.1 z hzys
    · rename_i hyx
      rw [List.pairwise_cons]
      have hxy : le x y = true := (htot x y).resolve_right (by simpa using hyx)
      refine ⟨?_, List.pairwise_cons.mpr ⟨h.1, h.2⟩⟩
      intro z hz
      rcases List.mem_cons.mp hz with rfl | hzys
      · exact hxy
      · exact htrans x y z hxy (h.1 z hzys)

theorem jsSort_pairwise_aux {α : Type} (le : α → α → Bool)
    (htrans : ∀ a b c, le a b = true → le b c = true → le a c = true)
    (htot : ∀ a b, le a b = true ∨ le b a = true)
    (l acc : List α) (hacc : acc.Pairwise (fun a b => le a b = true)) :
    (l.foldl (fun acc x => insertStable le x acc) acc).Pairwise
      (fun a b => le a b = true) := by
  induction l generalizing acc with
  | nil => exact hacc
  | cons x xs ih =>
    simp only [List.foldl_cons]
    exact ih _ (insertStable_pairwise le htrans htot x acc hacc)

/-- The model of `Array.prototype.sort` sorts (for a total, transitive
comparator). -/
theorem jsSort_pairwise {α : Type} (le : α → α → Bool)
    (htrans : ∀ a b c, le a b = true → le b c = true → le a c = true)
    (htot : ∀ a b, le a b = true ∨ le b a = true) (l : List α) :
    (jsSort le l).Pairwise (fun a b => le a b = true) :=
  jsSort_pairwise_aux le htrans htot l [] (List.Pairwise.nil)

theorem lexCharsLe_total : ∀ (a b : List Char),
    lexCharsLe a b = true ∨ lexCharsLe b a = true
  | [], _ => Or.inl rfl
  | _ :: _, [] => Or.inr rfl
  | a :: as, b :: bs => by
    unfold lexCharsLe
    by_cases h1 : a.toNat < b.toNat
    · left; simp [h1]
    · by_cases h2 : b.toNat < a.toNat
      · right; simp [h1, h2]
      · simpa [h1, h2] using lexCharsLe_total as bs

theorem lexCharsLe_trans : ∀ (a b c : List Char),
    lexCharsLe a b = true → lexCharsLe b c = true → lexCharsLe a c = true
  | [], _, _, _, _ => rfl
  | _ :: _, [], _, h1, _ => by simp [lexCharsLe] at h1
  | _ :: _, _ :: _, [], _, h2 => by simp [lexCharsLe] at h2
  | a :: as, b :: bs, c :: cs, h1, h2 => by
    unfold lexCharsLe at h1 h2 ⊢
    split_ifs at h1 h2 ⊢ <;>
      first
        | rfl
        | omega
        | exact lexCharsLe_trans as bs cs h1 h2

theorem strLe_total (a b : String) : strLe a b = true ∨ strLe b a = true :=
  lexCharsLe_total a.data b.data

theorem strLe_trans (a b c : String) (h1 : strLe a b = true) (h2 : strLe b c = true) :
    strLe a c = true :=
  lexCharsLe_trans a.data b.data c.data h1 h2

/-! ## C7 — per-schema enum import list -/

/-- A model cast that resolves against the enums directory: `inferFromCasts`
returns the parsed enum's name as the type and registers the definition in
`collectedEnums` (part_002 lines 608-628 via `mapCastToType`, lines
487-507). -/
theorem inferFromCasts_enum (prop cast : String) (options : ParseResourceOptions)
    (ce : CollectedEnums) (models : List (String × PhpNode))
    (modelAst enumAst : PhpNode) (d : EnumDefinition)
    (hmodels : options.modelsDir = some models)
    (hrc : ¬ options.resourceClass = "")
    (hmodel : jsObjGet models (stripResourceSuffix options.resourceClass) = some modelAst)
    (hcast : truthyGet (parseModelCasts (some modelAst)) prop = some cast)
    (hshape : (jsStartsWith (jsTrim cast) "\x7b" || jsIncludes (jsTrim cast) ":" ||
        testArrayBrace (jsTrim cast)) = false)
    (henum : jsObjGet options.enumsDir (shortCastName cast) = some enumAst)
    (hparse : parseEnumContent "label" (some enumAst) = some d) :
    inferFromCasts prop options ce = some (⟨d.name, false⟩, jsObjInsert ce d.name d) := by
  have hmap : mapCastToType cast options.enumsDir ce = (d.name, jsObjInsert ce d.name d) := by
    unfold mapCastToType
    dsimp only
    rw [henum]
    dsimp only
    rw [hparse]
  unfold inferFromCasts
  rw [hmodels]
  dsimp only
  rw [if_neg hrc, hmodel]
  dsimp only
  rw [hcast]
  dsimp only
  rw [if_neg (show ¬ ((jsStartsWith (jsTrim cast) "\x7b" || jsIncludes (jsTrim cast) ":" ||
      testArrayBrace (jsTrim cast)) = true) from by simp [hshape])]
  rw [hmap]

/-- The `$this->resource->prop` branch under a resolving enum cast, when the
name heuristics do not intercept. -/
theorem inferFromResourceProperty_enum (prop cast : String)
    (options : ParseResourceOptions) (ce : CollectedEnums)
    (models : List (String × PhpNode)) (modelAst enumAst : PhpNode)
    (d : EnumDefinition)
    (h1 : (jsStartsWith (jsToLower prop) "is_" || jsStartsWith (jsToLower prop) "has_" ||
        isHasCamel prop) = false)
    (h2 : (prop = "id" || jsEndsWith prop "_id" || jsToLower prop = "uuid" ||
        jsEndsWith prop "Id") = false)
    (hmodels : options.modelsDir = some models)
    (hrc : ¬ options.resourceClass = "")
    (hmodel : jsObjGet models (stripResourceSuffix options.resourceClass) = some modelAst)
    (hcast : truthyGet (parseModelCasts (some modelAst)) prop = some cast)
    (hshape : (jsStartsWith (jsTrim cast) "\x7b" || jsIncludes (jsTrim cast) ":" ||
        testArrayBrace (jsTrim cast)) = false)
    (henum : jsObjGet options.enumsDir (shortCastName cast) = some enumAst)
    (hparse : parseEnumContent "label" (some enumAst) = some d) :
    inferFromResourceProperty prop options ce
      = (⟨d.name, false⟩, jsObjInsert ce d.name d) := by
  have hc := inferFromCasts_enum prop cast options ce models modelAst enumAst d
    hmodels hrc hmodel hcast hshape henum hparse
  unfold inferFromResourceProperty
  rw [if_neg (show ¬ ((jsStartsWith (jsToLower prop) "is_" ||
      jsStartsWith (jsToLower prop) "has_" || isHasCamel prop) = true) from by simp [h1])]
  rw [if_neg (show ¬ ((prop = "id" || jsEndsWith prop "_id" || jsToLower prop = "uuid" ||
      jsEndsWith prop "Id") = true) from by simp [h2])]
  rw [hc]

/-- Full single-field inference through the cast path: a
`$this->resource->prop` expression whose model cast names a known enum
infers exactly that enum's name, with the definition collected. -/
theorem inferTypeFromAstNode_cast_enum (key prop cast : String)
    (options : ParseResourceOptions) (ce : CollectedEnums)
    (models : List (String × PhpNode)) (modelAst enumAst : PhpNode)
    (d : EnumDefinition)
    (hdoc : options.docShape.bind (fun m => truthyGet m key) = none)
    (hkey : boolKeyHeuristic key = false)
    (h1 : (jsStartsWith (jsToLower prop) "is_" || jsStartsWith (jsToLower prop) "has_" ||
        isHasCamel prop) = false)
    (h2 : (prop = "id" || jsEndsWith prop "_id" || jsToLower prop = "uuid" ||
        jsEndsWith prop "Id") = false)
    (hmodels : options.modelsDir = some models)
    (hrc : ¬ options.resourceClass = "")
    (hmodel : jsObjGet models (stripResourceSuffix options.resourceClass) = some modelAst)
    (hcast : truthyGet (parseModelCasts (some modelAst)) prop = some cast)
    (hshape : (jsStartsWith (jsTrim cast) "\x7b" || jsIncludes (jsTrim cast) ":" ||
        testArrayBrace (jsTrim cast)) = false)
    (henum : jsObjGet options.enumsDir (shortCastName cast) = some enumAst)
    (hparse : parseEnumContent "label" (some enumAst) = some d) :
    inferTypeFromAstNode (.propertylookup (.propertylookup (.pvariable "this")
        (.identifier "resource")) (.identifier prop)) key options ce
      = .ok (⟨d.name, false⟩, jsObjInsert ce d.name d) := by
  have hr := inferFromResourceProperty_enum prop cast options ce models modelAst enumAst d
    h1 h2 hmodels hrc hmodel hcast hshape henum hparse
  rw [inferTypeFromAstNode_eq, hdoc,
    if_neg (show ¬ (boolKeyHeuristic key = true) from by simp [hkey]), ← hr]
  rfl

/-- `jsObjInsert` always leaves the inserted key among the object's keys. -/
theorem jsObjInsert_mem_keys {α : Type} (m : List (String × α)) (k : String) (v : α) :
    k ∈ (jsObjInsert m k v).map Prod.fst := by
  unfold jsObjInsert
  split
  · rename_i h
    obtain ⟨p, hp, hpk⟩ := List.any_eq_true.mp h
    rw [List.mem_map]
    refine ⟨if p.1 == k then (k, v) else p, List.mem_map_of_mem _ hp, ?_⟩
    rw [if_pos hpk]
  · simp

/-- C7 (amended): the import name list of a non-fallback resource declaration
consists of exactly those run-wide referenced enums whose *name occurs as a
substring* of at least one field's type string (the code tests
`type.includes(enumName)`, not exact use), sorted by the JS default string
order and duplicate-free.  The cast-resolution half of the claim is derived,
not assumed: whenever the model cast for `prop` resolves through
`parseModelCasts`/`mapCastToType`/`parseEnumContent` to a known enum `d` (and
no earlier inference stage intercepts), `inferTypeFromAstNode` on the
`$this->resource->prop` expression returns a field whose type *is* `d.name`
while `d` enters `collectedEnums`, and the emitter called with the collected
key set (what the driver passes as `referencedEnums`) imports that name; the
final two conjuncts run the whole pipeline, `parseResourceFieldsAst` through
`generateSingleResourceTypeScript`, on a concrete model/enum/resource
fixture. -/
theorem c7_import_list_amended (className : String)
    (fields : List (String × ResourceFieldInfo)) (isFallback : Bool)
    (referencedEnums : List String) (phpFile : Option String) (e : String)
    (hnodup : referencedEnums.Nodup) :
    (e ∈ (generateSingleResourceTypeScript className fields isFallback referencedEnums
          phpFile).importedEnums
        ↔ e ∈ referencedEnums ∧ ∃ f ∈ fields, e.data <:+: f.2.type.data)
      ∧ (generateSingleResourceTypeScript className fields isFallback referencedEnums
          phpFile).importedEnums.Pairwise (fun a b => strLe a b = true)
      ∧ (generateSingleResourceTypeScript className fields isFallback referencedEnums
          phpFile).importedEnums.Nodup
      ∧ (∀ (key prop cast : String) (options : ParseResourceOptions)
           (ce : CollectedEnums) (models : List (String × PhpNode))
           (modelAst enumAst : PhpNode) (d : EnumDefinition),
           options.docShape.bind (fun m => truthyGet m key) = none →
           boolKeyHeuristic key = false →
           (jsStartsWith (jsToLower prop) "is_" || jsStartsWith (jsToLower prop) "has_" ||
              isHasCamel prop) = false →
           (prop = "id" || jsEndsWith prop "_id" || jsToLower prop = "uuid" ||
              jsEndsWith prop "Id") = false →
           options.modelsDir = some models →
           ¬ options.resourceClass = "" →
           jsObjGet models (stripResourceSuffix options.resourceClass) = some modelAst →
           truthyGet (parseModelCasts (some modelAst)) prop = some cast →
           (jsStartsWith (jsTrim cast) "\x7b" || jsIncludes (jsTrim cast) ":" ||
              testArrayBrace (jsTrim cast)) = false →
           jsObjGet options.enumsDir (shortCastName cast) = some enumAst →
           parseEnumContent "label" (some enumAst) = some d →
           inferTypeFromAstNode (.propertylookup (.propertylookup (.pvariable "this")
               (.identifier "resource")) (.identifier prop)) key options ce
             = .ok (⟨d.name, false⟩, jsObjInsert ce d.name d)
           ∧ d.name ∈ (jsObjInsert ce d.name d).map Prod.fst
           ∧ ∀ (cn : String) (flds : List (String × ResourceFieldInfo)) (fb : Bool)
               (pf : Option String),
               (key, (⟨d.name, false⟩ : ResourceFieldInfo)) ∈ flds →
               d.name ∈ (generateSingleResourceTypeScript cn flds fb
                  ((jsObjInsert ce d.name d).map Prod.fst) pf).importedEnums)
      ∧ parseResourceFieldsAst (some c7ResourceAst) c7Options []
          = .ok (some [("status", ⟨"OrderStatus", false⟩)], [("OrderStatus", c7EnumDef)])
      ∧ (generateSingleResourceTypeScript "OrderResource"
          [("status", ⟨"OrderStatus", false⟩)] false
          (([("OrderStatus", c7EnumDef)] : CollectedEnums).map Prod.fst)
          none).importedEnums = ["OrderStatus"]
       := by
  have hmem : ∀ (cn : String) (flds : List (String × ResourceFieldInfo)) (fb : Bool)
      (ref : List String) (pf : Option String) (x : String),
      x ∈ (generateSingleResourceTypeScript cn flds fb ref pf).importedEnums
        ↔ x ∈ ref ∧ ∃ f ∈ flds, x.data <:+: f.2.type.data := by
    intro cn flds fb ref pf x
    unfold generateSingleResourceTypeScript
    rw [(jsSort_perm strLe _).mem_iff, List.mem_filter]
    simp only [List.any_eq_true, jsIncludes_iff]
  refine ⟨hmem className fields isFallback referencedEnums phpFile e, ?_, ?_, ?_, rfl, rfl⟩
  · exact jsSort_pairwise strLe strLe_trans strLe_total _
  · unfold generateSingleResourceTypeScript
    exact ((jsSort_perm strLe _).nodup_iff).mpr (hnodup.filter _)
  · intro key prop cast options ce models modelAst enumAst d hdoc hkey h1 h2 hmodels
      hrc hmodel hcast hshape henum hparse
    refine ⟨inferTypeFromAstNode_cast_enum key prop cast options ce models modelAst enumAst d
        hdoc hkey h1 h2 hmodels hrc hmodel hcast hshape henum hparse,
      jsObjInsert_mem_keys ce d.name d, ?_⟩
    intro cn flds fb pf hf
    exact (hmem cn flds fb _ pf d.name).mpr
      ⟨jsObjInsert_mem_keys ce d.name d, ⟨(key, ⟨d.name, false⟩), hf, List.infix_refl _⟩⟩

/-- Witness for `c7_import_list_amended`: a schema with one field of type
`OrderStatus` against the referenced set `\x7bOrderStatus\x7d`. -/
theorem c7_import_list_witness :
    ("OrderStatus" ∈ (generateSingleResourceTypeScript "OrderResource"
          [("status", ⟨"OrderStatus", false⟩)] false ["OrderStatus"] none).importedEnums
        ↔ "OrderStatus" ∈ ["OrderStatus"]
          ∧ ∃ f ∈ [("status", (⟨"OrderStatus", false⟩ : ResourceFieldInfo))],
              "OrderStatus".data <:+: f.2.type.data)
      ∧ (generateSingleResourceTypeScript "OrderResource"
          [("status", ⟨"OrderStatus", false⟩)] false ["OrderStatus"]
          none).importedEnums.Pairwise (fun a b => strLe a b = true)
      ∧ (generateSingleResourceTypeScript "OrderResource"
          [("status", ⟨"OrderStatus", false⟩)] false ["OrderStatus"]
          none).importedEnums.Nodup
      ∧ (∀ (key prop cast : String) (options : ParseResourceOptions)
           (ce : CollectedEnums) (models : List (String × PhpNode))
           (modelAst enumAst : PhpNode) (d : EnumDefinition),
           options.docShape.bind (fun m => truthyGet m key) = none →
           boolKeyHeuristic key = false →
           (jsStartsWith (jsToLower prop) "is_" || jsStartsWith (jsToLower prop) "has_" ||
              isHasCamel prop) = false →
           (prop = "id" || jsEndsWith prop "_id" || jsToLower prop = "uuid" ||
              jsEndsWith prop "Id") = false →
           options.modelsDir = some models →
           ¬ options.resourceClass = "" →
           jsObjGet models (stripResourceSuffix options.resourceClass) = some modelAst →
           truthyGet (parseModelCasts (some modelAst)) prop = some cast →
           (jsStartsWith (jsTrim cast) "\x7b" || jsIncludes (jsTrim cast) ":" ||
              testArrayBrace (jsTrim cast)) = false →
           jsObjGet options.enumsDir (shortCastName cast) = some enumAst →
           parseEnumContent "label" (some enumAst) = some d →
           inferTypeFromAstNode (.propertylookup (.propertylookup (.pvariable "this")
               (.identifier "resource")) (.identifier prop)) key options ce
             = .ok (⟨d.name, false⟩, jsObjInsert ce d.name d)
           ∧ d.name ∈ (jsObjInsert ce d.name d).map Prod.fst
           ∧ ∀ (cn : String) (flds : List (String × ResourceFieldInfo)) (fb : Bool)
               (pf : Option String),
               (key, (⟨d.name, false⟩ : ResourceFieldInfo)) ∈ flds →
               d.name ∈ (generateSingleResourceTypeScript cn flds fb
                  ((jsObjInsert ce d.name d).map Prod.fst) pf).importedEnums)
      ∧ parseResourceFieldsAst (some c7ResourceAst) c7Options []
          = .ok (some [("status", ⟨"OrderStatus", false⟩)], [("OrderStatus", c7EnumDef)])
      ∧ (generateSingleResourceTypeScript "OrderResource"
          [("status", ⟨"OrderStatus", false⟩)] false
          (([("OrderStatus", c7EnumDef)] : CollectedEnums).map Prod.fst)
          none).importedEnums = ["OrderStatus"] :=
  c7_import_list_amended "OrderResource" [("status", ⟨"OrderStatus", false⟩)] false
    ["OrderStatus"] none "OrderStatus" (by decide)

/-- C7 counterexample: with the run-wide referenced set `{OrderStatus,
Status}` and a single field whose type is exactly the identifier
`OrderStatus`, the emitted import list is `[OrderStatus, Status]` — `Status`
rides in because `'OrderStatus'.includes('Status')` is true — although no
field of the schema uses the `Status` enum, so the claimed list (the set of
enums actually used, sorted) would be `[OrderStatus]`. -/
theorem c7_substring_counterexample :
    (generateSingleResourceTypeScript "OrderResource" [("s", ⟨"OrderStatus", false⟩)]
        false ["OrderStatus", "Status"] none).importedEnums = ["OrderStatus", "Status"]
      ∧ ["OrderStatus", "Status"] ≠ ["OrderStatus"] :=
  ⟨rfl, by decide⟩

/-! ## C8 — mappings-string encoding -/

theorem mappingLe_total (a b : SourceMapping) :
    mappingLe a b = true ∨ mappingLe b a = true := by
  unfold mappingLe
  split_ifs <;> simp <;> omega

theorem mappingLe_trans (a b c : SourceMapping) (h1 : mappingLe a b = true)
    (h2 : mappingLe b c = true) : mappingLe a c = true := by
  unfold mappingLe at h1 h2 ⊢
  split_ifs at h1 h2 ⊢ <;> simp_all <;> omega

/-- When no two mappings share a `(generatedLine, generatedColumn)` pair, the
sort result is the same for every permutation of the input (with ties, JS's
stable sort makes the result order-dependent — see the counterexample). -/
theorem jsSort_eq_of_perm_of_distinct (l l' : List SourceMapping)
    (hperm : List.Perm l' l)
    (hkeys : l.Pairwise (fun a b => ¬(a.generatedLine = b.generatedLine
      ∧ a.generatedColumn = b.generatedColumn))) :
    jsSort mappingLe l' = jsSort mappingLe l := by
  have hsym : ∀ {x y : SourceMapping},
      ¬(x.generatedLine = y.generatedLine ∧ x.generatedColumn = y.generatedColumn) →
      ¬(y.generatedLine = x.generatedLine ∧ y.generatedColumn = x.generatedColumn) :=
    fun h hc => h ⟨hc.1.symm, hc.2.symm⟩
  have hp : List.Perm (jsSort mappingLe l') (jsSort mappingLe l) :=
    (jsSort_perm _ _).trans (hperm.trans (jsSort_perm _ _).symm)
  have mk : ∀ (m : List SourceMapping), List.Perm m l →
      (jsSort mappingLe m).Pairwise (fun a b => a.generatedLine < b.generatedLine
        ∨ (a.generatedLine = b.generatedLine ∧ a.generatedColumn < b.generatedColumn)) := by
    intro m hm
    have h1 := jsSort_pairwise mappingLe mappingLe_trans mappingLe_total m
    have h2 := (List.Perm.pairwise_iff hsym ((jsSort_perm mappingLe m).trans hm)).mpr hkeys
    refine (h1.and h2).imp ?_
    intro a b hab
    obtain ⟨hle, hne⟩ := hab
    unfold mappingLe at hle
    split_ifs at hle <;> simp_all
    omega
  haveI : IsAntisymm SourceMapping (fun a b => a.generatedLine < b.generatedLine
      ∨ (a.generatedLine = b.generatedLine ∧ a.generatedColumn < b.generatedColumn)) :=
    ⟨by intro a b h1 h2; exfalso; omega⟩
  exact List.eq_of_perm_of_sorted hp (mk l' hperm) (mk l (List.Perm.refl l))

theorem getD_pad (l : List (List String)) (k i : Nat) :
    (l ++ List.replicate k ([] : List String)).getD i [] = l.getD i [] := by
  rw [List.getD_eq_getElem?_getD, List.getD_eq_getElem?_getD, List.getElem?_append]
  split_ifs with h
  · rfl
  · rw [List.getElem?_replicate, List.getElem?_eq_none (by omega)]
    split_ifs <;> rfl

theorem encodeStep_length (lines : List (List String)) (st : VlqState)
    (m : SourceMapping) :
    ((encodeStep (lines, st) m).1).length = max lines.length m.generatedLine := by
  unfold encodeStep
  by_cases h : lines.length < m.generatedLine
  · simp only [if_pos h, List.length_set, List.length_append, List.length_replicate]
    omega
  · simp only [if_neg h, List.length_set]
    omega

theorem encodeStep_getD_ne (lines : List (List String)) (st : VlqState)
    (m : SourceMapping) (i : Nat) (hi : m.generatedLine ≠ i + 1)
    (hm : 1 ≤ m.generatedLine) :
    ((encodeStep (lines, st) m).1).getD i [] = lines.getD i [] := by
  unfold encodeStep
  have hne : m.generatedLine - 1 ≠ i := by omega
  by_cases h : lines.length < m.generatedLine
  · simp only [if_pos h]
    rw [List.getD_eq_getElem?_getD, List.getElem?_set_ne hne,
      ← List.getD_eq_getElem?_getD, getD_pad]
  · simp only [if_neg h]
    rw [List.getD_eq_getElem?_getD, List.getElem?_set_ne hne,
      ← List.getD_eq_getElem?_getD]

theorem encodeStep_slot_ne (lines : List (List String)) (st : VlqState)
    (m : SourceMapping) (hm : 1 ≤ m.generatedLine) :
    ((encodeStep (lines, st) m).1).getD (m.generatedLine - 1) [] ≠ [] := by
  unfold encodeStep
  by_cases h : lines.length < m.generatedLine
  · simp only [if_pos h]
    rw [List.getD_eq_getElem?_getD,
      List.getElem?_set_self (by simp [List.length_append, List.length_replicate]; omega)]
    simp
  · simp only [if_neg h]
    rw [List.getD_eq_getElem?_getD, List.getElem?_set_self (by omega)]
    simp

theorem maxGeneratedLine_perm (l₁ l₂ : List SourceMapping) (h : List.Perm l₁ l₂) :
    maxGeneratedLine l₁ = maxGeneratedLine l₂ := by
  induction h with
  | nil => rfl
  | cons x _ ih => simp only [maxGeneratedLine, List.foldr_cons] at *; omega
  | swap x y l => simp only [maxGeneratedLine, List.foldr_cons]; omega
  | trans _ _ ih1 ih2 => exact ih1.trans ih2

/-- Invariant of the `encodeMappings` loop: the built line list is exactly as
long as the largest generated line seen, and a slot is empty exactly when no
processed mapping lives on that line. -/
theorem buildLines_spec (ms : List SourceMapping) :
    ∀ (lines : List (List String)) (st : VlqState),
    (∀ m ∈ ms, 1 ≤ m.generatedLine) →
    ((ms.foldl encodeStep (lines, st)).1.length
        = max lines.length (maxGeneratedLine ms))
    ∧ (∀ i, ((ms.foldl encodeStep (lines, st)).1.getD i [] = []) ↔
        (lines.getD i [] = [] ∧ ∀ m ∈ ms, m.generatedLine ≠ i + 1)) := by
  induction ms with
  | nil =>
    intro lines st _
    refine ⟨by simp [maxGeneratedLine], ?_⟩
    intro i
    simp
  | cons m ms ih =>
    intro lines st hpos
    have hm : 1 ≤ m.generatedLine := hpos m (List.mem_cons_self m ms)
    have hrest : ∀ m' ∈ ms, 1 ≤ m'.generatedLine :=
      fun m' h => hpos m' (List.mem_cons_of_mem m h)
    obtain ⟨ihlen, ihslot⟩ :=
      ih (encodeStep (lines, st) m).1 (encodeStep (lines, st) m).2 hrest
    rw [show ((encodeStep (lines, st) m).1, (encodeStep (lines, st) m).2)
        = encodeStep (lines, st) m from rfl] at ihlen ihslot
    constructor
    · rw [List.foldl_cons, ihlen, encodeStep_length]
      have hmx : maxGeneratedLine (m :: ms) = max m.generatedLine (maxGeneratedLine ms) := by
        simp [maxGeneratedLine]
      rw [hmx]
      exact max_assoc lines.length m.generatedLine (maxGeneratedLine ms)
    · intro i
      rw [List.foldl_cons, ihslot i]
      by_cases hgi : m.generatedLine = i + 1
      · constructor
        · rintro ⟨hempty, -⟩
          exfalso
          apply encodeStep_slot_ne lines st m hm
          rw [show m.generatedLine - 1 = i from by omega]
          exact hempty
        · rintro ⟨-, hall⟩
          exact absurd hgi (hall m (List.mem_cons_self m ms))
      · rw [encodeStep_getD_ne lines st m i hgi hm]
        simp [List.forall_mem_cons, hgi]

/-- C8 (amended): for mapping lists whose `(generatedLine, generatedColumn)`
pairs are pairwise distinct, `encodeMappings` is invariant under permutation
of the input (the generator sorts first; with tied keys the stable sort makes
the output depend on input order — see the counterexample); and every
generated line up to the last mapped line that carries no segment contributes
an empty slot (an empty segment list between semicolons), the built line list
being exactly as long as the largest mapped line. -/
theorem c8_encode_mappings_amended (l : List SourceMapping)
    (hkeys : l.Pairwise (fun a b => ¬(a.generatedLine = b.generatedLine
      ∧ a.generatedColumn = b.generatedColumn)))
    (hpos : ∀ m ∈ l, 1 ≤ m.generatedLine) :
    (∀ l', List.Perm l' l → encodeMappings l' = encodeMappings l)
    ∧ (buildMappingLines (jsSort mappingLe l)).length = maxGeneratedLine l
    ∧ (∀ i, ((buildMappingLines (jsSort mappingLe l)).getD i [] = [])
        ↔ ∀ m ∈ l, m.generatedLine ≠ i + 1) := by
  have hsortpos : ∀ m ∈ jsSort mappingLe l, 1 ≤ m.generatedLine := by
    intro m hm
    exact hpos m ((jsSort_perm mappingLe l).mem_iff.mp hm)
  obtain ⟨hlen, hslot⟩ := buildLines_spec (jsSort mappingLe l) [] ⟨0, 0, 0, 0⟩ hsortpos
  refine ⟨?_, ?_, ?_⟩
  · intro l' hp
    unfold encodeMappings
    rw [jsSort_eq_of_perm_of_distinct l l' hp hkeys]
    have hempty : l'.isEmpty = l.isEmpty := by
      have := hp.length_eq
      cases l' <;> cases l <;> simp_all
    rw [hempty]
  · unfold buildMappingLines
    rw [hlen, maxGeneratedLine_perm _ _ (jsSort_perm mappingLe l)]
    simp
  · intro i
    unfold buildMappingLines
    have h0 : (([] : List (List String)).getD i []) = [] := rfl
    rw [hslot i, h0]
    simp only [eq_self_iff_true, true_and]
    constructor
    · intro h m hm
      exact h m ((jsSort_perm mappingLe l).mem_iff.mpr hm)
    · intro h m hm
      exact h m ((jsSort_perm mappingLe l).mem_iff.mp hm)

/-- Witness for `c8_encode_mappings_amended`: two mappings with distinct
generated positions encode identically in either input order. -/
theorem c8_encode_mappings_witness :
    encodeMappings [(⟨2, 5, 3, 2⟩ : SourceMapping), ⟨1, 0, 1, 0⟩]
      = encodeMappings [(⟨1, 0, 1, 0⟩ : SourceMapping), ⟨2, 5, 3, 2⟩] :=
  (c8_encode_mappings_amended [⟨1, 0, 1, 0⟩, ⟨2, 5, 3, 2⟩] (by decide) (by decide)).1
    [⟨2, 5, 3, 2⟩, ⟨1, 0, 1, 0⟩] (by decide)

/-- C8 counterexample: `tieMappingA` and `tieMappingB` tie on
`(generatedLine, generatedColumn) = (1, 0)` but differ in source line; the
stable sort keeps the input order, so the two input permutations produce
different mappings strings — the output is *not* invariant under permutation
of the input. -/
theorem c8_tie_counterexample :
    encodeMappings [tieMappingA, tieMappingB] = "AAAA,AACA"
      ∧ encodeMappings [tieMappingB, tieMappingA] = "AACA,AADA"
      ∧ ("AAAA,AACA" : String) ≠ "AACA,AADA" :=
  ⟨rfl, rfl, by decide⟩

/-! ## C5 — label attachment from the match arms -/

theorem preorderList_cons (n : PhpNode) (rest : List PhpNode) :
    preorderList (n :: rest) = preorder n ++ preorderList rest := rfl

theorem preorderList_append (l₁ l₂ : List PhpNode) :
    preorderList (l₁ ++ l₂) = preorderList l₁ ++ preorderList l₂ := by
  induction l₁ with
  | nil => rfl
  | cons x xs ih =>
    rw [List.cons_append, preorderList_cons, preorderList_cons, ih, List.append_assoc]

theorem caseNodes_filter_enumcase (cs : List (String × String)) :
    (preorderList (cs.map (fun c => PhpNode.enumcase c.1 (some (.pstring c.2))))).filter
        (fun nd => kindOf nd == "enumcase")
      = cs.map (fun c => PhpNode.enumcase c.1 (some (.pstring c.2))) := by
  induction cs with
  | nil => rfl
  | cons c cs ih =>
    rw [List.map_cons, preorderList_cons, List.filter_append, ih]
    rfl

theorem caseNodes_filter_method (cs : List (String × String)) :
    (preorderList (cs.map (fun c => PhpNode.enumcase c.1 (some (.pstring c.2))))).filter
        (fun nd => kindOf nd == "method") = [] := by
  induction cs with
  | nil => rfl
  | cons c cs ih =>
    rw [List.map_cons, preorderList_cons, List.filter_append, ih]
    rfl

theorem armNodes_filter_enumcase (arms : List (String × String)) :
    (preorderList (arms.map mkLabelArm)).filter (fun nd => kindOf nd == "enumcase") = [] := by
  induction arms with
  | nil => rfl
  | cons a rest ih =>
    rw [List.map_cons, preorderList_cons, List.filter_append, ih]
    rfl

theorem armNodes_filter_method (arms : List (String × String)) :
    (preorderList (arms.map mkLabelArm)).filter (fun nd => kindOf nd == "method") = [] := by
  induction arms with
  | nil => rfl
  | cons a rest ih =>
    rw [List.map_cons, preorderList_cons, List.filter_append, ih]
    rfl

/-- The label-method subtree contributes no `enumcase` nodes. -/
theorem methodPart_filter_enumcase (lm : String) (arms : List (String × String)) :
    (preorderList [PhpNode.method lm (some (.block [.preturn (some
        (.pmatch (.pvariable "this") (arms.map mkLabelArm)))]))]).filter
        (fun nd => kindOf nd == "enumcase") = [] := by
  have h : (preorderList [PhpNode.method lm (some (.block [.preturn (some
        (.pmatch (.pvariable "this") (arms.map mkLabelArm)))]))]).filter
        (fun nd => kindOf nd == "enumcase")
      = ((preorderList (arms.map mkLabelArm) ++ []) ++ []).filter
          (fun nd => kindOf nd == "enumcase") := rfl
  rw [h, List.append_nil, List.append_nil, armNodes_filter_enumcase]

/-- The label-method subtree contributes exactly itself as `method` node. -/
theorem methodPart_filter_method (lm : String) (arms : List (String × String)) :
    (preorderList [PhpNode.method lm (some (.block [.preturn (some
        (.pmatch (.pvariable "this") (arms.map mkLabelArm)))]))]).filter
        (fun nd => kindOf nd == "method")
      = [PhpNode.method lm (some (.block [.preturn (some
          (.pmatch (.pvariable "this") (arms.map mkLabelArm)))]))] := by
  have h : (preorderList [PhpNode.method lm (some (.block [.preturn (some
        (.pmatch (.pvariable "this") (arms.map mkLabelArm)))]))]).filter
        (fun nd => kindOf nd == "method")
      = PhpNode.method lm (some (.block [.preturn (some
          (.pmatch (.pvariable "this") (arms.map mkLabelArm)))]))
        :: ((preorderList (arms.map mkLabelArm) ++ []) ++ []).filter
            (fun nd => kindOf nd == "method") := rfl
  rw [h, List.append_nil, List.append_nil, armNodes_filter_method]

/-- The enum node of `mkEnumAst` is the first `enum`-kinded node. -/
theorem mkEnumAst_findEnum (n : String) (b : Option String) (lm : String)
    (cs arms : List (String × String)) :
    findNodeByKind (mkEnumAst n b lm cs arms) "enum" = some (mkEnumAst n b lm cs arms) := by
  unfold findNodeByKind findAllNodesByKind
  have h : (preorder (mkEnumAst n b lm cs arms)).filter (fun nd => kindOf nd == "enum")
      = mkEnumAst n b lm cs arms
        :: (preorderList ((cs.map (fun c => PhpNode.enumcase c.1 (some (.pstring c.2))))
              ++ [PhpNode.method lm (some (.block [.preturn (some
                  (.pmatch (.pvariable "this") (arms.map mkLabelArm)))]))])).filter
            (fun nd => kindOf nd == "enum") := rfl
  rw [h, List.head?_cons]

/-- The collected `enumcase` nodes of `mkEnumAst` are exactly the case nodes,
in source order. -/
theorem mkEnumAst_enumcases (n : String) (b : Option String) (lm : String)
    (cs arms : List (String × String)) :
    findAllNodesByKind (mkEnumAst n b lm cs arms) "enumcase"
      = cs.map (fun c => PhpNode.enumcase c.1 (some (.pstring c.2))) := by
  unfold findAllNodesByKind
  have h : (preorder (mkEnumAst n b lm cs arms)).filter (fun nd => kindOf nd == "enumcase")
      = (preorderList ((cs.map (fun c => PhpNode.enumcase c.1 (some (.pstring c.2))))
            ++ [PhpNode.method lm (some (.block [.preturn (some
                (.pmatch (.pvariable "this") (arms.map mkLabelArm)))]))])).filter
          (fun nd => kindOf nd == "enumcase") := rfl
  rw [h, preorderList_append, List.filter_append, caseNodes_filter_enumcase,
    methodPart_filter_enumcase, List.append_nil]

/-- The collected `method` nodes of `mkEnumAst` are exactly the label method. -/
theorem mkEnumAst_methods (n : String) (b : Option String) (lm : String)
    (cs arms : List (String × String)) :
    findAllNodesByKind (mkEnumAst n b lm cs arms) "method"
      = [PhpNode.method lm (some (.block [.preturn (some
          (.pmatch (.pvariable "this") (arms.map mkLabelArm)))]))] := by
  unfold findAllNodesByKind
  have h : (preorder (mkEnumAst n b lm cs arms)).filter (fun nd => kindOf nd == "method")
      = (preorderList ((cs.map (fun c => PhpNode.enumcase c.1 (some (.pstring c.2))))
            ++ [PhpNode.method lm (some (.block [.preturn (some
                (.pmatch (.pvariable "this") (arms.map mkLabelArm)))]))])).filter
          (fun nd => kindOf nd == "method") := rfl
  rw [h, preorderList_append, List.filter_append, caseNodes_filter_method,
    methodPart_filter_method, List.nil_append]

/-- The first `match` node inside the label method's body. -/
theorem methodBody_findMatch (arms : List (String × String)) :
    findNodeByKind (.block [.preturn (some
        (.pmatch (.pvariable "this") (arms.map mkLabelArm)))]) "match"
      = some (.pmatch (.pvariable "this") (arms.map mkLabelArm)) := by
  unfold findNodeByKind findAllNodesByKind
  have h : (preorder (PhpNode.block [.preturn (some
        (.pmatch (.pvariable "this") (arms.map mkLabelArm)))])).filter
        (fun nd => kindOf nd == "match")
      = PhpNode.pmatch (.pvariable "this") (arms.map mkLabelArm)
        :: (preorderList (arms.map mkLabelArm) ++ []).filter
            (fun nd => kindOf nd == "match") := rfl
  rw [h, List.head?_cons]

theorem caseNodes_filterMap (cs : List (String × String)) :
    (cs.map (fun c => PhpNode.enumcase c.1 (some (.pstring c.2)))).filterMap extractEnumCase
      = cs.map (fun c => (⟨c.1, .str c.2, none⟩ : EnumCase)) := by
  induction cs with
  | nil => rfl
  | cons c cs ih =>
    rw [List.map_cons, List.filterMap_cons, List.map_cons]
    rw [show extractEnumCase (PhpNode.enumcase c.1 (some (.pstring c.2)))
        = some ⟨c.1, .str c.2, none⟩ from rfl, ih]

/-- `parseEnumContent` on a `mkEnumAst` artifact: the enum's name and
(lower-cased) backing are read off, the cases are extracted in order, and the
label-attachment loop runs over the match arms. -/
theorem parseEnumContent_mkEnumAst (lm n : String) (b : Option String)
    (cs arms : List (String × String)) :
    parseEnumContent lm (some (mkEnumAst n b lm cs arms))
      = some { name := n, backing := b.map jsToLower,
               cases := applyLabelArms (arms.map mkLabelArm)
                 (cs.map (fun c => (⟨c.1, .str c.2, none⟩ : EnumCase))) } := by
  unfold parseEnumContent
  dsimp only
  rw [mkEnumAst_findEnum]
  have hcases := mkEnumAst_enumcases n b lm cs arms
  have hmethods := mkEnumAst_methods n b lm cs arms
  dsimp only [mkEnumAst] at hcases hmethods ⊢
  rw [hcases, hmethods, caseNodes_filterMap]
  rw [List.find?_cons_of_pos _ (by simp [methodHasName])]
  dsimp only
  rw [methodBody_findMatch]

/-- One arm of the label match: a non-empty `self::K` condition sets that
case's label to the arm body. -/
theorem applyLabelArm_mkLabelArm (cases : List EnumCase) (p : String × String) :
    applyLabelArm cases (mkLabelArm p)
      = if p.1 == "" then cases else setCaseLabel cases p.1 p.2 := rfl

/-- `setCaseLabel` at the sought key relabels the case `find?` locates. -/
theorem setCaseLabel_find?_self (cases : List EnumCase) (k lbl : String) :
    (setCaseLabel cases k lbl).find? (fun c => c.key == k)
      = (cases.find? (fun c => c.key == k)).map
          (fun c => { c with label := some lbl }) := by
  induction cases with
  | nil => rfl
  | cons c rest ih =>
    by_cases h : c.key = k
    · rw [show setCaseLabel (c :: rest) k lbl = { c with label := some lbl } :: rest from by
        simp [setCaseLabel, h]]
      rw [List.find?_cons_of_pos _ (by simp [h]), List.find?_cons_of_pos _ (by simp [h])]
      rfl
    · rw [show setCaseLabel (c :: rest) k lbl = c :: setCaseLabel rest k lbl from by
        simp [setCaseLabel, h]]
      rw [List.find?_cons_of_neg _ (by simp [h]), List.find?_cons_of_neg _ (by simp [h]), ih]

/-- `setCaseLabel` at a different key leaves `find?` at the sought key alone. -/
theorem setCaseLabel_find?_ne (cases : List EnumCase) (a lbl k : String)
    (hak : a ≠ k) :
    (setCaseLabel cases a lbl).find? (fun c => c.key == k)
      = cases.find? (fun c => c.key == k) := by
  induction cases with
  | nil => rfl
  | cons c rest ih =>
    by_cases h : c.key = a
    · rw [show setCaseLabel (c :: rest) a lbl = { c with label := some lbl } :: rest from by
        simp [setCaseLabel, h]]
      rw [List.find?_cons_of_neg _ (by simp [h, hak]),
        List.find?_cons_of_neg _ (by simp [h, hak])]
    · rw [show setCaseLabel (c :: rest) a lbl = c :: setCaseLabel rest a lbl from by
        simp [setCaseLabel, h]]
      by_cases hck : c.key = k
      · rw [List.find?_cons_of_pos _ (by simp [hck]), List.find?_cons_of_pos _ (by simp [hck])]
      · rw [List.find?_cons_of_neg _ (by simp [hck]),
          List.find?_cons_of_neg _ (by simp [hck]), ih]

/-- If no arm's condition names `k`, the label loop leaves the case `find?`
locates at `k` unchanged. -/
theorem applyLabelArms_find?_none (arms : List (String × String))
    (cases : List EnumCase) (k : String)
    (harms : arms.find? (fun p => p.1 == k) = none) :
    (applyLabelArms (arms.map mkLabelArm) cases).find? (fun c => c.key == k)
      = cases.find? (fun c => c.key == k) := by
  induction arms generalizing cases with
  | nil => rfl
  | cons a rest ih =>
    have hak : ¬ a.1 = k := by
      intro h
      rw [List.find?_cons_of_pos _ (by simp [h])] at harms
      exact Option.some_ne_none a harms
    rw [List.find?_cons_of_neg _ (by simp [hak])] at harms
    rw [List.map_cons]
    rw [show applyLabelArms (mkLabelArm a :: rest.map mkLabelArm) cases
        = applyLabelArms (rest.map mkLabelArm) (applyLabelArm cases (mkLabelArm a)) from rfl]
    rw [applyLabelArm_mkLabelArm]
    by_cases hae : a.1 = ""
    · rw [if_pos (by simp [hae]), ih cases harms]
    · rw [if_neg (by simp [hae]), ih _ harms, setCaseLabel_find?_ne _ _ _ _ hak]

/-- If the first arm naming `k` carries body `p.2` and arm keys are distinct,
the label loop relabels exactly the case `find?` locates at `k`. -/
theorem applyLabelArms_find?_some (arms : List (String × String))
    (cases : List EnumCase) (k : String) (p : String × String)
    (hk : k ≠ "")
    (harms : arms.find? (fun q => q.1 == k) = some p)
    (hnd : (arms.map Prod.fst).Nodup) :
    (applyLabelArms (arms.map mkLabelArm) cases).find? (fun c => c.key == k)
      = (cases.find? (fun c => c.key == k)).map
          (fun c => { c with label := some p.2 }) := by
  induction arms generalizing cases with
  | nil => exact absurd harms (by simp)
  | cons a rest ih =>
    rw [List.map_cons, List.nodup_cons] at hnd
    rw [List.map_cons]
    rw [show applyLabelArms (mkLabelArm a :: rest.map mkLabelArm) cases
        = applyLabelArms (rest.map mkLabelArm) (applyLabelArm cases (mkLabelArm a)) from rfl]
    rw [applyLabelArm_mkLabelArm]
    by_cases hak : a.1 = k
    · rw [List.find?_cons_of_pos _ (by simp [hak])] at harms
      cases harms
      have hrest : rest.find? (fun q => q.1 == k) = none := by
        rw [List.find?_eq_none]
        intro q hq
        simp only [beq_iff_eq]
        intro hqk
        exact hnd.1 (hak ▸ hqk ▸ List.mem_map_of_mem Prod.fst hq)
      rw [if_neg (by simp [hak, hk]), applyLabelArms_find?_none rest _ k hrest,
        hak, setCaseLabel_find?_self]
    · rw [List.find?_cons_of_neg _ (by simp [hak])] at harms
      by_cases hae : a.1 = ""
      · rw [if_pos (by simp [hae]), ih _ harms hnd.2]
      · rw [if_neg (by simp [hae]), ih _ harms hnd.2, setCaseLabel_find?_ne _ _ _ _ hak]

/-- `find?` on the extracted case list mirrors `find?` on the source pairs. -/
theorem caseList_find? (cs : List (String × String)) (k v : String)
    (hfind : cs.find? (fun p => p.1 == k) = some (k, v)) :
    (cs.map (fun c => (⟨c.1, .str c.2, none⟩ : EnumCase))).find?
        (fun c => c.key == k)
      = some ⟨k, .str v, none⟩ := by
  induction cs with
  | nil => exact absurd hfind (by simp)
  | cons c rest ih =>
    by_cases h : c.1 = k
    · rw [List.find?_cons_of_pos _ (by simp [h])] at hfind
      cases hfind
      rw [List.map_cons, List.find?_cons_of_pos _ (by simp [h])]
    · rw [List.find?_cons_of_neg _ (by simp [h])] at hfind
      rw [List.map_cons, List.find?_cons_of_neg _ (by simp [h]), ih hfind]

/-- C5: for an enum artifact with a label method (either the current name
`label` or the legacy `getLabel`) whose body is a match on `$this` over
`self::CASE => scalar` arms, extraction attaches each arm's scalar body as the
label of the named case, and a case named by no arm keeps no label: the
extracted definition's case at key `k` carries exactly
`(arms.find? (fun p => p.1 == k)).map Prod.snd` as its label. -/
theorem c5_label_attachment (lm n k v : String) (b : Option String)
    (cs arms : List (String × String))
    (hk : k ≠ "")
    (hfind : cs.find? (fun p => p.1 == k) = some (k, v))
    (hnd : (arms.map Prod.fst).Nodup) :
    (parseEnumContent lm (some (mkEnumAst n b lm cs arms))).map
        (fun d => (d.name, d.backing, d.cases.find? (fun c => c.key == k)))
      = some (n, b.map jsToLower,
          some { key := k, value := .str v,
                 label := (arms.find? (fun p => p.1 == k)).map Prod.snd }) := by
  rw [parseEnumContent_mkEnumAst, Option.map_some']
  dsimp only
  cases harms : arms.find? (fun p => p.1 == k) with
  | none =>
    rw [applyLabelArms_find?_none arms _ k harms, caseList_find? cs k v hfind]
    simp [harms]
  | some p =>
    rw [applyLabelArms_find?_some arms _ k p hk harms hnd, caseList_find? cs k v hfind]
    simp [harms]

theorem c5_label_attachment_witness :
    (parseEnumContent "label" (some (mkEnumAst "Status" (some "String") "label"
        [("A", "a"), ("B", "b")] [("A", "Alpha")]))).map
        (fun d => (d.name, d.backing, d.cases.find? (fun c => c.key == "A")))
      = some ("Status", some "string",
          some { key := "A", value := .str "a", label := some "Alpha" }) ∧
    (parseEnumContent "getLabel" (some (mkEnumAst "Status" none "getLabel"
        [("A", "a")] []))).map
        (fun d => (d.name, d.backing, d.cases.find? (fun c => c.key == "A")))
      = some ("Status", none,
          some { key := "A", value := .str "a", label := none }) :=
  ⟨c5_label_attachment "label" "Status" "A" "a" (some "String")
      [("A", "a"), ("B", "b")] [("A", "Alpha")] (by decide) (by rfl) (by decide),
   c5_label_attachment "getLabel" "Status" "A" "a" none
      [("A", "a")] [] (by decide) (by rfl) (by decide)⟩

end Ferry
